import Mathlib

/-!
# Verification of the colloids particle-analysis engine

Shallow embedding of the algorithmic core of the colloids repository:
the particle set with its Euclidean neighbour queries (`src/lib/particles.cpp`),
the neighbour-list constructions, the topological cluster tools, the
bond-orientational-order (BOO) pipeline, the trajectory linker
(`src/multiscale/traj.cpp`) and the 2D-to-3D reconstructor
(`src/multiscale/reconstructor.cpp`).

Machine `double` values are idealized as exact rationals; the only place
where IEEE semantics matters (complex division by zero in the BOO
normalisation) is modelled explicitly by an `Option` marker.
-/

namespace Colloids

/-- A 3-vector of rational coordinates (embedding of `Coord`,
a `valarray<double>` of size 3). -/
structure V3 where
  vx : ℚ
  vy : ℚ
  vz : ℚ
deriving DecidableEq, Repr

/-- The origin, used as the default value of out-of-range accesses that the
proofs never reach. -/
def V3.zero : V3 := ⟨0, 0, 0⟩

/-- Squared Euclidean distance: `dot(diff, diff)` where
`diff = getDiff(a, b)` is the componentwise difference of the positions. -/
def dist2 (a b : V3) : ℚ :=
  (a.vx - b.vx) * (a.vx - b.vx) + (a.vy - b.vy) * (a.vy - b.vy) +
    (a.vz - b.vz) * (a.vz - b.vz)

/-- An axis-aligned box, embedding of `BoundingBox` (three intervals). -/
structure Box3 where
  lo : V3
  hi : V3
deriving DecidableEq, Repr

/-- Modelled from the spec: membership of a point in a `BoundingBox` is a
conjunction of closed interval containments. -/
def Box3.holds (b : Box3) (p : V3) : Bool :=
  decide (b.lo.vx ≤ p.vx) && decide (p.vx ≤ b.hi.vx) &&
  decide (b.lo.vy ≤ p.vy) && decide (p.vy ≤ b.hi.vy) &&
  decide (b.lo.vz ≤ p.vz) && decide (p.vz ≤ b.hi.vz)

/-- `Particles::bounds(center, r)`: the cube of half-width `r` around
`center` (each edge is `[center_i - r, center_i + r]`). -/
def bounds (c : V3) (r : ℚ) : Box3 :=
  ⟨⟨c.vx - r, c.vy - r, c.vz - r⟩, ⟨c.vx + r, c.vy + r, c.vz + r⟩⟩

/-- Position of particle `i` in a particle set (out of range gives the
origin; all theorems keep indices in range). -/
def pt (pts : List V3) (i : ℕ) : V3 := pts.getD i V3.zero

/-- Modelled from the spec: `selectEnclosed(box)` (declared in the missing
header `particles.hpp`) returns the ids whose positions lie in the box,
in ascending id order, via the spatial index that stores for every
particle `i` the degenerate box `bounds(p_i, 0)`. -/
def selectEnclosed (pts : List V3) (b : Box3) : List ℕ :=
  (List.range pts.length).filter (fun i => b.holds (pt pts i))

/-- `Particles::getEuclidianNeighbours(Coord center, range)`: the ids
enclosed in the cube of half-width `range` around `center` whose squared
distance to `center` is strictly below `range * range`. -/
def getEuclidianNeighboursC (pts : List V3) (center : V3) (range : ℚ) : List ℕ :=
  (selectEnclosed pts (bounds center range)).filter
    (fun i => decide (dist2 center (pt pts i) < range * range))

/-- `Particles::getEuclidianNeighbours(size_t center, range)`: same as the
coordinate version around the position of particle `center`, but the id
`center` itself is skipped before the distance test. -/
def getEuclidianNeighboursI (pts : List V3) (center : ℕ) (range : ℚ) : List ℕ :=
  (selectEnclosed pts (bounds (pt pts center) range)).filter
    (fun i => !decide (i = center) && decide (dist2 (pt pts center) (pt pts i) < range * range))

/-- `Particles::makeNgbList(bondLength)`: for every particle `p` the
neighbour list is the Euclidean query of radius `2 * bondLength * radius`
around `p`, excluding `p` itself. -/
def makeNgbListLength (pts : List V3) (radius bondLength : ℚ) : List (List ℕ) :=
  (List.range pts.length).map
    (fun p => getEuclidianNeighboursI pts p (2 * bondLength * radius))

/-- One step of `Particles::makeNgbList(BondSet)`: append `high` to the
list of `low` and `low` to the list of `high`. -/
def addBond (ngb : List (List ℕ)) (b : ℕ × ℕ) : List (List ℕ) :=
  let n1 := ngb.set b.1 (ngb.getD b.1 [] ++ [b.2])
  n1.set b.2 (n1.getD b.2 [] ++ [b.1])

/-- `Particles::makeNgbList(BondSet)`: starting from `size()` empty lists,
insert both orientations of every bond. -/
def makeNgbListBonds (n : ℕ) (bonds : List (ℕ × ℕ)) : List (List ℕ) :=
  bonds.foldl addBond (List.replicate n [])

/-- `Particles::cut(sep)`: first-come-first-served greedy filter; a point
is kept iff the incrementally built output has no point within `sep`
of it (Euclidean query on the output built so far). -/
def cut (pts : List V3) (sep : ℚ) : List V3 :=
  pts.foldl
    (fun out p => if (getEuclidianNeighboursC out p sep).isEmpty then out ++ [p] else out)
    []

/-- Specification-side greedy filter: scan the points in input order and
keep a point iff every previously kept point is at squared distance at
least `sep * sep` from it. -/
def cutSpec (pts : List V3) (sep : ℚ) : List V3 :=
  pts.foldl
    (fun out p => if out.all (fun q => decide (sep * sep ≤ dist2 q p)) then out ++ [p] else out)
    []

/-! ## Neighbour lists, rings and order parameters: definitions -/

/-- Row `i` of a neighbour list (out of range gives the empty row). -/
def nth (l : List (List ℕ)) (i : ℕ) : List ℕ := l.getD i []

/-- Embedding of `std::set_intersection` on two iterator ranges: merge walk
that outputs the elements present in both (sorted) inputs. -/
def interSorted : List ℕ → List ℕ → List ℕ
  | [], _ => []
  | _ :: _, [] => []
  | a :: as, b :: bs =>
    if a < b then interSorted as (b :: bs)
    else if b < a then interSorted (a :: as) bs
    else a :: interSorted as bs
termination_by l1 l2 => l1.length + l2.length

/-- `Particles::is_ring(common)`: every member of `common` must have
exactly two members of `common` in its (sorted) neighbour list. -/
def is_ring (ngb : List (List ℕ)) (common : List ℕ) : Bool :=
  common.all (fun c => decide ((interSorted (nth ngb c) common).length = 2))

/-- `Particles::get1551pairs()`: for every bond `(p, q)` with `q` taken
from `lower_bound(ngb[p], p+1)` onward, keep the bond iff the sorted
common-neighbour intersection has exactly 5 elements and forms a ring. -/
def get1551pairs (ngb : List (List ℕ)) : List (ℕ × ℕ) :=
  (List.range ngb.length).flatMap (fun p =>
    ((nth ngb p).dropWhile (fun q => decide (q < p + 1))).filterMap (fun q =>
      if (interSorted (nth ngb p) (nth ngb q)).length = 5 ∧
          is_ring ngb (interSorted (nth ngb p) (nth ngb q)) then
        some (p, q)
      else none))

/-- Rows of a valid neighbour list are sorted and within range. -/
def NgbValid (ngb : List (List ℕ)) : Prop :=
  (∀ l ∈ ngb, l.Pairwise (· < ·)) ∧ ∀ l ∈ ngb, ∀ x ∈ l, x < ngb.length

/-- A complex number with rational parts. -/
structure QC where
  re : ℚ
  im : ℚ
deriving DecidableEq, Repr

def QC.zero : QC := ⟨0, 0⟩

def addQC (a b : QC) : QC := ⟨a.re + b.re, a.im + b.im⟩

def mulQC (a b : QC) : QC :=
  ⟨a.re * b.re - a.im * b.im, a.re * b.im + a.im * b.re⟩

def conjQC (a : QC) : QC := ⟨a.re, -a.im⟩

def smulQC (c : ℚ) (a : QC) : QC := ⟨c * a.re, c * a.im⟩

/-- Complex division, exact when the divisor is nonzero; division by the
complex zero produces NaN components in IEEE arithmetic, modelled as
`none`. -/
def cdiv (z w : QC) : Option QC :=
  if w = QC.zero then none
  else
    some ⟨(z.re * w.re + z.im * w.im) / (w.re * w.re + w.im * w.im),
          (z.im * w.re - z.re * w.im) / (w.re * w.re + w.im * w.im)⟩

/-- The 36-coefficient descriptor. -/
def BooData : Type := Fin 36 → QC

def zeroBoo : BooData := fun _ => QC.zero

def addBoo (a b : BooData) : BooData := fun i => addQC (a i) (b i)

/-- Elementwise division of a descriptor by a complex scalar
(`valarray<complex>::operator/=`); `none` when dividing by zero. -/
def booDiv (b : BooData) (w : QC) : Option BooData :=
  if w = QC.zero then none
  else some (fun i => ((cdiv (b i) w).getD QC.zero))

/-- Coefficient `q_{l,m}` for `m ≥ 0`: storage index `m + l*l/4`. -/
def coefB (b : BooData) (l m : ℕ) : QC :=
  if h : m + l * l / 4 < 36 then b ⟨m + l * l / 4, h⟩ else QC.zero

/-- Coefficient for signed `m`, using `q_{l,-m} = (-1)^m conj(q_{l,m})`. -/
def coefSigned (b : BooData) (l : ℕ) (m : ℤ) : QC :=
  if 0 ≤ m then coefB b l m.toNat
  else smulQC ((-1 : ℚ) ^ (-m).toNat) (conjQC (coefB b l (-m).toNat))

def normSqQC (a : QC) : ℚ := a.re * a.re + a.im * a.im

/-- `BooData::getSumNorm(l)`: the rotationally invariant sum
`|q_{l,0}|^2 + 2 sum_{m>0} |q_{l,m}|^2`.  Modelled from the spec: the
implementation file `boo.cpp` is not part of the sources. -/
def getSumNorm (l : ℕ) (b : BooData) : ℚ :=
  normSqQC (coefB b l 0) +
    2 * ((List.range l).map (fun m => normSqQC (coefB b l (m + 1)))).sum

/-- `BooData::getQl(l)`.  Modelled from the spec:
`Q_l = sqrt(4 pi / (2l+1) * sum_m |q_{l,m}|^2)`. -/
noncomputable def getQl (l : ℕ) (b : BooData) : ℝ :=
  Real.sqrt (4 * Real.pi / (2 * l + 1) * (getSumNorm l b : ℝ))

/-- `BooData::getWl(l)`.  Modelled from the spec:
`W_l = sum_{m1+m2+m3=0} w3j(l,m1,m2) q_{l,m1} q_{l,m2} q_{l,m3}`, with the
Wigner 3-j table kept abstract as a parameter. -/
def getWl (w3 : ℕ → ℤ → ℤ → ℚ) (l : ℕ) (b : BooData) : QC :=
  ((List.range (2 * l + 1)).flatMap (fun i1 =>
    (List.range (2 * l + 1)).filterMap (fun i2 =>
      let m1 : ℤ := (i1 : ℤ) - l
      let m2 : ℤ := (i2 : ℤ) - l
      let m3 : ℤ := -m1 - m2
      if -(l : ℤ) ≤ m3 ∧ m3 ≤ l then
        some (smulQC (w3 l m1 m2)
          (mulQC (coefSigned b l m1) (mulQC (coefSigned b l m2) (coefSigned b l m3))))
      else none))).foldl addQC QC.zero

/-- `Particles::getBOO(center)`: sum the bond harmonics over the
neighbours of `center` and divide by the bond count; the bond count 0 is
guarded and leaves the zero descriptor. -/
def getBOO (Y : ℕ → ℕ → BooData) (ngb : List (List ℕ)) (center : ℕ) : BooData :=
  let l := nth ngb center
  if l.length = 0 then zeroBoo
  else fun i =>
    (cdiv ((l.foldl (fun acc q => addBoo acc (Y center q)) zeroBoo) i)
      ⟨(l.length : ℚ), 0⟩).getD QC.zero

def bumpBoo (l : List BooData) (i : ℕ) (s : BooData) : List BooData :=
  l.set i (addBoo (l.getD i zeroBoo) s)

def bumpNb (l : List ℕ) (i : ℕ) : List ℕ := l.set i (l.getD i 0 + 1)

/-- `Particles::getBOOs(BOO)`: symmetric traversal over the bonds
`(p, q)`, `q` from `lower_bound(ngb[p], p+1)` onward, scattering each bond
harmonic into both endpoints, then an unguarded normalisation of every
particle by its bond count — a count of zero divides by the complex zero
and the descriptor becomes NaN (`none`). -/
def getBOOs (Y : ℕ → ℕ → BooData) (ngb : List (List ℕ)) : List (Option BooData) :=
  let st := (List.range ngb.length).foldl
    (fun st p =>
      ((nth ngb p).dropWhile (fun q => decide (q < p + 1))).foldl
        (fun st q =>
          (bumpBoo (bumpBoo st.1 p (Y p q)) q (Y p q),
           bumpNb (bumpNb st.2 p) q))
        st)
    (List.replicate ngb.length zeroBoo, List.replicate ngb.length 0)
  List.zipWith (fun b n => booDiv b ⟨(n : ℚ), 0⟩) st.1 st.2

/-- A trajectory: its starting frame and one position index per
consecutive spanned frame. -/
structure Traj where
  start : ℕ
  steps : List ℕ
deriving DecidableEq, Repr

/-- The dual trajectory index: `tr2pos` maps a trajectory id to its
trajectory, `pos2tr` maps each frame to the vector sending a position
index to its trajectory id. -/
structure TrajIndex where
  tr2pos : List Traj
  pos2tr : List (List ℕ)
deriving DecidableEq, Repr

/-- `TrajIndex::TrajIndex(n)`: one singleton trajectory per position of
the initial frame, `pos2tr[0]` the identity. -/
def mkTrajIndex (n : ℕ) : TrajIndex :=
  ⟨(List.range n).map (fun p => ⟨0, [p]⟩), [List.range n]⟩

/-- A candidate link: a distance and the two position indices (`la` in
the previous frame, `lb` in the new frame). -/
structure Link where
  d : ℚ
  la : ℕ
  lb : ℕ
deriving DecidableEq, Repr

/-- `Link::operator<` compares by distance only; `std::list::sort` is a
stable sort with this comparison. -/
def linkLE (x y : Link) : Bool := decide (x.d ≤ y.d)

def pushTraj (t : Traj) (p : ℕ) : Traj := ⟨t.start, t.steps ++ [p]⟩

/-- Mutable loop state of `add_Frame`: the two used-flag arrays, the
`pos2tr` row of the new frame and the trajectory array. -/
structure LinkState where
  fromUsed : List Bool
  toUsed : List Bool
  newMap : List ℕ
  trs : List Traj
deriving DecidableEq, Repr

/-- Body of the greedy link loop: accept a link iff neither of its
endpoints is used yet; an accepted link marks both endpoints, records the
trajectory id of the new position and extends that trajectory. -/
def linkStep (prevMap : List ℕ) (st : LinkState) (l : Link) : LinkState :=
  if st.fromUsed.getD l.la true = false ∧ st.toUsed.getD l.lb true = false then
    { fromUsed := st.fromUsed.set l.la true
      toUsed := st.toUsed.set l.lb true
      newMap := st.newMap.set l.lb (prevMap.getD l.la 0)
      trs := st.trs.set (prevMap.getD l.la 0)
        (pushTraj (st.trs.getD (prevMap.getD l.la 0) ⟨0, []⟩) l.lb) }
  else st

/-- Final loop of `add_Frame`: every still-unused position of the new
frame starts a fresh singleton trajectory. -/
def createNew (nframes : ℕ) (toUsed : List Bool) (acc : List ℕ × List Traj) :
    List ℕ × List Traj :=
  (List.range toUsed.length).foldl
    (fun acc p =>
      if toUsed.getD p true = false then
        (acc.1.set p acc.2.length, acc.2 ++ [⟨nframes, [p]⟩])
      else acc)
    acc

/-- The mutating part of `TrajIndex::add_Frame`, after validation. -/
def addFrameCore (ti : TrajIndex) (frame_size : ℕ) (links : List Link) : TrajIndex :=
  let prevMap := ti.pos2tr.getLastD []
  let sorted := links.mergeSort linkLE
  let st := sorted.foldl (linkStep prevMap)
    ⟨List.replicate prevMap.length false, List.replicate frame_size false,
      List.replicate frame_size 0, ti.tr2pos⟩
  let fin := createNew ti.pos2tr.length st.toUsed (st.newMap, st.trs)
  ⟨fin.2, ti.pos2tr ++ [fin.1]⟩

/-- Failure modes of `add_Frame`: the two `std::invalid_argument` throws,
and the undefined behaviours (dereferencing `max_element` of an empty
array; indexing `from_used` out of range). -/
inductive AddErr where
  | sizeMismatch
  | maxToOutOfRange
  | ub
deriving DecidableEq, Repr

/-- `TrajIndex::add_Frame`: validates that the three arrays have one
length and that `max(to) < frame_size`, then links greedily by ascending
distance. -/
def addFrame (ti : TrajIndex) (frame_size : ℕ) (ds : List ℚ) (fs ts : List ℕ) :
    Except AddErr TrajIndex :=
  if ¬(ds.length = fs.length ∧ fs.length = ts.length) then .error .sizeMismatch
  else if ts.isEmpty then .error .ub
  else if frame_size ≤ ts.max?.getD 0 then .error .maxToOutOfRange
  else if ¬(fs.all (fun f => decide (f < (ti.pos2tr.getLastD []).length))) then
    .error .ub
  else
    .ok (addFrameCore ti frame_size
      (List.zipWith (fun d ft => Link.mk d ft.1 ft.2) ds (fs.zip ts)))

/-- Specification-side greedy scan: walk the distance-sorted candidates,
accepting a link iff neither endpoint was used by an earlier accepted
link. -/
def greedyLinks : List Link → List ℕ → List ℕ → List Link
  | [], _, _ => []
  | l :: rest, uf, ut =>
    if l.la ∉ uf ∧ l.lb ∉ ut then l :: greedyLinks rest (l.la :: uf) (l.lb :: ut)
    else greedyLinks rest uf ut

/-- Canonical used-flag array: flag `i` is set iff `i` is in the set `s`. -/
def usedA (n : ℕ) (s : List ℕ) : List Bool :=
  (List.range n).map (fun i => decide (i ∈ s))

def nmFold (prevMap : List ℕ) (A : List Link) (newMap : List ℕ) : List ℕ :=
  A.foldl (fun nm l => nm.set l.lb (prevMap.getD l.la 0)) newMap

def trFold (prevMap : List ℕ) (A : List Link) (trs : List Traj) : List Traj :=
  A.foldl
    (fun ts l => ts.set (prevMap.getD l.la 0)
      (pushTraj (ts.getD (prevMap.getD l.la 0) ⟨0, []⟩) l.lb)) trs

def assignMiss (base : ℕ) (nm : List ℕ) : List ℕ → List ℕ
  | [] => nm
  | p :: ps => assignMiss (base + 1) (nm.set p base) ps

/-- A 2D detection: planar position, scale (radius) and intensity. -/
structure Center2D where
  cx : ℚ
  cy : ℚ
  r : ℚ
  intensity : ℚ
deriving DecidableEq, Repr

/-- A 3D center. Modelled from the spec: `Center3D(c, t)` copies the
planar position, radius and intensity of a 2D detection and stores the
frame index `t` as third coordinate. -/
structure Center3D where
  px : ℚ
  py : ℚ
  pz : ℚ
  r : ℚ
  intensity : ℚ
deriving DecidableEq, Repr

def mkC3 (c : Center2D) (t : ℕ) : Center3D :=
  ⟨c.cx, c.cy, (t : ℚ), c.r, c.intensity⟩

def c2d (fr : List Center2D) (i : ℕ) : Center2D := fr.getD i ⟨0, 0, 0, 0⟩

/-- A 2D axis-aligned box of the `RStarBoundingBox<2, double>` kind. -/
structure Box2 where
  lox : ℚ
  hix : ℚ
  loy : ℚ
  hiy : ℚ
deriving DecidableEq, Repr

/-- `get_bb(c, tolerance)`: the square of half-width `r * tolerance`
around the detection. -/
def get_bb (c : Center2D) (tolerance : ℚ) : Box2 :=
  ⟨c.cx - c.r * tolerance, c.cx + c.r * tolerance,
   c.cy - c.r * tolerance, c.cy + c.r * tolerance⟩

/-- Intersection of two 2D boxes (closed on both sides). -/
def overlap2 (a b : Box2) : Bool :=
  decide (a.lox ≤ b.hix) && decide (b.lox ≤ a.hix) &&
  decide (a.loy ≤ b.hiy) && decide (b.loy ≤ a.hiy)

/-- Squared planar distance between two detections. -/
def dist2p (a b : Center2D) : ℚ :=
  (a.cx - b.cx) * (a.cx - b.cx) + (a.cy - b.cy) * (a.cy - b.cy)

/-- Modelled from the spec: the R*-tree overlap query (the RStarTree
library is not part of the sources) returns, without duplicates, the ids
of the stored boxes — one box `get_bb(fr[t], 1)` per detection of the
indexed frame — that intersect the query box; order is unspecified and
taken here as insertion order. -/
def queryOverlap (fr : List Center2D) (q : Box2) : List ℕ :=
  (List.range fr.length).filter (fun t => overlap2 q (get_bb (c2d fr t) 1))

/-- `Reconstructor::links_by_RStarTree`: for each detection of the
previous frame, query the new frame with its box expanded by `tolerance`
and keep each candidate whose squared planar distance is below
`((r_p + r_t) * tolerance)^2`. -/
def links_by_RStarTree (last fr : List Center2D) (tolerance : ℚ) :
    List (ℚ × ℕ × ℕ) :=
  (List.range last.length).flatMap (fun p =>
    (queryOverlap fr (get_bb (c2d last p) tolerance)).filterMap (fun t =>
      if dist2p (c2d last p) (c2d fr t) <
          ((c2d last p).r + (c2d fr t).r) * tolerance *
            (((c2d last p).r + (c2d fr t).r) * tolerance) then
        some (dist2p (c2d last p) (c2d fr t), p, t)
      else none))

/-- `Reconstructor::links_by_brute_force`: all pairs with their squared
planar distances, previous-frame index major. -/
def links_by_brute_force (last fr : List Center2D) : List (ℚ × ℕ × ℕ) :=
  (List.range last.length).flatMap (fun f =>
    (List.range fr.length).map (fun t => (dist2p (c2d last f) (c2d fr t), f, t)))

/-- One step of the cluster-update loop of `push_back`: a position owned
by an already-existing trajectory extends that trajectory's cluster, any
other position starts a new singleton cluster at the end. -/
def clusterStep (newMap : List ℕ) (old : ℕ) (fr : List Center2D) (t : ℕ)
    (cl : List (List Center3D)) (p : ℕ) : List (List Center3D) :=
  if newMap.getD p 0 < old then
    cl.set (newMap.getD p 0) (cl.getD (newMap.getD p 0) [] ++ [mkC3 (c2d fr p) t])
  else cl ++ [[mkC3 (c2d fr p) t]]

/-- The reconstructor state: the clusters, the trajectory index (absent
before the first frame) and the last inserted frame. -/
structure Recon where
  clusters : List (List Center3D)
  traj : Option TrajIndex
  last_frame : List Center2D
deriving DecidableEq, Repr

def emptyRecon : Recon := ⟨[], none, []⟩

/-- `Reconstructor::push_back(frame, tolerance)`: on the first frame, one
singleton cluster and one singleton trajectory per detection; afterwards
link against the last frame via the R*-tree candidates, feed the links to
`add_Frame`, then extend the cluster of every already-existing trajectory
and append one new singleton cluster per new trajectory, in ascending
position order.  (`Reconstructor::size()`, declared in the missing
header, is the number of frames inserted so far — the z of the new
frame.) -/
def pushBackRecon (rec : Recon) (fr : List Center2D) (tolerance : ℚ) :
    Except AddErr Recon :=
  match rec.traj with
  | none =>
      .ok ⟨fr.map (fun c => [mkC3 c 0]), some (mkTrajIndex fr.length), fr⟩
  | some ti =>
      let lks := links_by_RStarTree rec.last_frame fr tolerance
      let t := ti.pos2tr.length
      let old_traj := ti.tr2pos.length
      match addFrame ti fr.length (lks.map (fun x => x.1))
          (lks.map (fun x => x.2.1)) (lks.map (fun x => x.2.2)) with
      | .error e => .error e
      | .ok ti2 =>
        .ok ⟨(List.range fr.length).foldl
              (clusterStep (ti2.pos2tr.getLastD []) old_traj fr t)
              rec.clusters,
             some ti2, fr⟩

/-- A sequence of `push_back` calls, all with the same tolerance. -/
def runRecon (frames : List (List Center2D)) (tolerance : ℚ) :
    Except AddErr Recon :=
  frames.foldl
    (fun acc fr => match acc with
      | .error e => .error e
      | .ok rec => pushBackRecon rec fr tolerance)
    (.ok emptyRecon)

/-! ## Derived forms of the linker and reconstructor, used by the proofs -/

/-- The candidate list as built by the `add_Frame` loop. -/
def mkLinks (ds : List ℚ) (fs ts : List ℕ) : List Link :=
  List.zipWith (fun d ft => Link.mk d ft.1 ft.2) ds (fs.zip ts)

/-- The accepted links: greedy scan of the distance-sorted candidates. -/
def acceptedOf (links : List Link) : List Link :=
  greedyLinks (links.mergeSort linkLE) [] []

/-- Trajectory of a given id. -/
def trAt (trs : List Traj) (i : ℕ) : Traj := trs.getD i ⟨0, []⟩

/-- The `pos2tr` row of the most recent frame. -/
def lastMap (ti : TrajIndex) : List ℕ := ti.pos2tr.getLastD []

/-- New-frame positions not reached by an accepted link, ascending. -/
def missList (A : List Link) (frame_size : ℕ) : List ℕ :=
  (List.range frame_size).filter (fun p => decide (p ∉ A.map (fun l => l.lb)))

/-- The reconstructor invariant tying clusters to trajectories: as many
clusters as trajectories, the trajectory index well formed (ownership map
of the last frame in range and injective, owned trajectories alive), and
cluster `tr` holding one `Center3D` per frame spanned by trajectory `tr`
in ascending frame order (witnessed by its z-coordinates). -/
def ReconInv (rec : Recon) : Prop :=
  match rec.traj with
  | none => rec.clusters = []
  | some ti =>
      ti.pos2tr ≠ [] ∧
      (lastMap ti).length = rec.last_frame.length ∧
      (∀ p, p < (lastMap ti).length → (lastMap ti).getD p 0 < ti.tr2pos.length) ∧
      (∀ i j, i < (lastMap ti).length → j < (lastMap ti).length →
        (lastMap ti).getD i 0 = (lastMap ti).getD j 0 → i = j) ∧
      (∀ p, p < (lastMap ti).length →
        (trAt ti.tr2pos ((lastMap ti).getD p 0)).start +
          (trAt ti.tr2pos ((lastMap ti).getD p 0)).steps.length = ti.pos2tr.length) ∧
      rec.clusters.length = ti.tr2pos.length ∧
      (∀ tr, tr < ti.tr2pos.length →
        (rec.clusters.getD tr []).map (fun c => c.pz) =
          (List.range' (trAt ti.tr2pos tr).start
            (trAt ti.tr2pos tr).steps.length).map (Nat.cast : ℕ → ℚ))

/-- The extension-only part of the cluster loop. -/
def extFold (newMap : List ℕ) (fr : List Center2D) (t : ℕ)
    (qs : List ℕ) (cl : List (List Center3D)) : List (List Center3D) :=
  qs.foldl
    (fun cl p =>
      cl.set (newMap.getD p 0) (cl.getD (newMap.getD p 0) [] ++ [mkC3 (c2d fr p) t]))
    cl

def runStep (tol : ℚ) (acc : Except AddErr Recon) (fr : List Center2D) :
    Except AddErr Recon :=
  match acc with
  | .error e => .error e
  | .ok rec => pushBackRecon rec fr tol

def tiW : TrajIndex := ⟨[⟨0, [0, 0]⟩], [[0], [0]]⟩

def reconW : Recon :=
  ⟨[[mkC3 ⟨0, 0, 1, 0⟩ 0, mkC3 ⟨1, 0, 1, 0⟩ 1]], some tiW, [⟨1, 0, 1, 0⟩]⟩

/-! ## Euclidean neighbour queries: characterizations (C5) -/

theorem dist2_comm (a b : V3) : dist2 a b = dist2 b a := by
  unfold dist2; ring

theorem dist2_nonneg (a b : V3) : 0 ≤ dist2 a b := by
  unfold dist2
  nlinarith [mul_self_nonneg (a.vx - b.vx), mul_self_nonneg (a.vy - b.vy),
    mul_self_nonneg (a.vz - b.vz)]

theorem holds_bounds_comm (a b : V3) (r : ℚ) :
    (bounds a r).holds b = (bounds b r).holds a := by
  rw [Bool.eq_iff_iff]
  simp only [Box3.holds, bounds, Bool.and_eq_true, decide_eq_true_eq]
  constructor <;> rintro ⟨⟨⟨⟨⟨h1, h2⟩, h3⟩, h4⟩, h5⟩, h6⟩ <;>
    refine ⟨⟨⟨⟨⟨?_, ?_⟩, ?_⟩, ?_⟩, ?_⟩, ?_⟩ <;> linarith

theorem holds_of_dist2_lt (c q : V3) (r : ℚ) (hr : 0 ≤ r)
    (h : dist2 c q < r * r) : (bounds c r).holds q = true := by
  have hx := mul_self_nonneg (c.vx - q.vx)
  have hy := mul_self_nonneg (c.vy - q.vy)
  have hz := mul_self_nonneg (c.vz - q.vz)
  unfold dist2 at h
  simp only [Box3.holds, bounds, Bool.and_eq_true, decide_eq_true_eq]
  refine ⟨⟨⟨⟨⟨?_, ?_⟩, ?_⟩, ?_⟩, ?_⟩, ?_⟩ <;> nlinarith

theorem mem_getEuclidianNeighboursC (pts : List V3) (c : V3) (r : ℚ) (i : ℕ) :
    i ∈ getEuclidianNeighboursC pts c r ↔
      i < pts.length ∧ (bounds c r).holds (pt pts i) ∧ dist2 c (pt pts i) < r * r := by
  simp only [getEuclidianNeighboursC, selectEnclosed, List.mem_filter,
    List.mem_range, decide_eq_true_eq]
  tauto

theorem mem_getEuclidianNeighboursC_iff (pts : List V3) (c : V3) (r : ℚ)
    (hr : 0 ≤ r) (i : ℕ) :
    i ∈ getEuclidianNeighboursC pts c r ↔
      i < pts.length ∧ dist2 c (pt pts i) < r * r := by
  rw [mem_getEuclidianNeighboursC]
  constructor
  · rintro ⟨h1, _, h3⟩; exact ⟨h1, h3⟩
  · rintro ⟨h1, h3⟩; exact ⟨h1, holds_of_dist2_lt c _ r hr h3, h3⟩

theorem mem_getEuclidianNeighboursI (pts : List V3) (c : ℕ) (r : ℚ) (i : ℕ) :
    i ∈ getEuclidianNeighboursI pts c r ↔
      i < pts.length ∧ (bounds (pt pts c) r).holds (pt pts i) ∧ i ≠ c ∧
        dist2 (pt pts c) (pt pts i) < r * r := by
  simp only [getEuclidianNeighboursI, selectEnclosed, List.mem_filter,
    List.mem_range, Bool.and_eq_true, Bool.not_eq_eq_eq_not, Bool.not_true,
    decide_eq_false_iff_not, decide_eq_true_eq]
  tauto

theorem mem_getEuclidianNeighboursI_iff (pts : List V3) (c : ℕ) (r : ℚ)
    (hr : 0 ≤ r) (i : ℕ) :
    i ∈ getEuclidianNeighboursI pts c r ↔
      i < pts.length ∧ i ≠ c ∧ dist2 (pt pts c) (pt pts i) < r * r := by
  rw [mem_getEuclidianNeighboursI]
  constructor
  · rintro ⟨h1, _, h3, h4⟩; exact ⟨h1, h3, h4⟩
  · rintro ⟨h1, h3, h4⟩; exact ⟨h1, holds_of_dist2_lt _ _ r hr h4, h3, h4⟩

/-- C5: with a nonnegative radius `r`, the Euclidean neighbour query around
a coordinate returns exactly the particles at squared distance strictly
less than `r * r` (distance exactly `r` is excluded by the strict
comparison), and the query around the position of particle `c` returns
exactly those same indices minus `c` itself — even when another particle
shares the position of `c`. -/
theorem euclidianNeighbours_exact (pts : List V3) (c0 : V3) (c : ℕ) (r : ℚ)
    (hr : 0 ≤ r) (i : ℕ) :
    (i ∈ getEuclidianNeighboursC pts c0 r ↔
      i < pts.length ∧ dist2 c0 (pt pts i) < r * r) ∧
    (i ∈ getEuclidianNeighboursI pts c r ↔
      i < pts.length ∧ i ≠ c ∧ dist2 (pt pts c) (pt pts i) < r * r) :=
  ⟨mem_getEuclidianNeighboursC_iff pts c0 r hr i,
   mem_getEuclidianNeighboursI_iff pts c r hr i⟩

/-- Witness for C5 at a concrete input: two particles at the same position;
the indexed query around particle 0 keeps particle 1 (distance 0 < 1) but
excludes particle 0 itself. -/
theorem euclidianNeighbours_exact_witness :
    (0 : ℚ) ≤ 1 ∧
    ((1 ∈ getEuclidianNeighboursC [V3.zero, V3.zero] V3.zero 1 ↔
      1 < 2 ∧ dist2 V3.zero (pt [V3.zero, V3.zero] 1) < 1 * 1) ∧
    (1 ∈ getEuclidianNeighboursI [V3.zero, V3.zero] 0 1 ↔
      1 < 2 ∧ 1 ≠ 0 ∧
        dist2 (pt [V3.zero, V3.zero] 0) (pt [V3.zero, V3.zero] 1) < 1 * 1)) :=
  ⟨by norm_num,
   euclidianNeighbours_exact [V3.zero, V3.zero] V3.zero 0 1 (by norm_num) 1⟩

/-! ## Neighbour-list symmetry (C6) -/

theorem pt_eq_getElem (pts : List V3) (i : ℕ) (h : i < pts.length) :
    pt pts i = pts[i] := List.getD_eq_getElem pts V3.zero h

theorem nth_map_range (f : ℕ → List ℕ) (n i : ℕ) :
    nth ((List.range n).map f) i = if i < n then f i else [] := by
  unfold nth
  rcases Nat.lt_or_ge i n with h | h
  · rw [if_pos h, List.getD_eq_getElem _ _ (by simpa using h)]
    simp
  · rw [if_neg (by omega), List.getD_eq_default _ _ (by simpa using h)]

theorem mem_nth_makeNgbListLength (pts : List V3) (radius bondLength : ℚ)
    (i j : ℕ) :
    j ∈ nth (makeNgbListLength pts radius bondLength) i ↔
      i < pts.length ∧ j ∈ getEuclidianNeighboursI pts i (2 * bondLength * radius) := by
  unfold makeNgbListLength
  rw [nth_map_range]
  split
  · simp [*]
  · simp [*]

theorem length_addBond (ngb : List (List ℕ)) (b : ℕ × ℕ) :
    (addBond ngb b).length = ngb.length := by
  simp [addBond]

theorem nth_set (l : List (List ℕ)) (k : ℕ) (v : List ℕ) (i : ℕ)
    (hk : k < l.length) :
    nth (l.set k v) i = if k = i then v else nth l i := by
  unfold nth
  rcases Nat.lt_or_ge i l.length with h | h
  · rw [List.getD_eq_getElem _ _ (by simpa using h), List.getElem_set]
    by_cases hki : k = i
    · rw [if_pos hki, if_pos hki]
    · rw [if_neg hki, if_neg hki, List.getD_eq_getElem _ _ h]
  · rw [List.getD_eq_default _ _ (by simpa using h),
      if_neg (show ¬k = i by omega),
      List.getD_eq_default _ _ (by simpa using h)]

theorem mem_nth_addBond (ngb : List (List ℕ)) (b1 b2 : ℕ) (i j : ℕ)
    (hb1 : b1 < ngb.length) (hb2 : b2 < ngb.length) :
    j ∈ nth (addBond ngb (b1, b2)) i ↔
      j ∈ nth ngb i ∨ (b1 = i ∧ j = b2) ∨ (b2 = i ∧ j = b1) := by
  have hg1 : ngb.getD b1 [] = nth ngb b1 := rfl
  have hg2 : ∀ l : List (List ℕ), l.getD b2 [] = nth l b2 := fun _ => rfl
  simp only [addBond, hg1, hg2]
  rw [nth_set _ _ _ _ (by simpa using hb2), nth_set _ _ _ _ hb1]
  by_cases h2i : b2 = i
  · subst h2i
    rw [if_pos rfl]
    by_cases h12 : b1 = b2
    · subst h12
      rw [if_pos rfl]
      simp only [List.mem_append, List.mem_singleton]
      tauto
    · rw [if_neg h12]
      simp only [List.mem_append, List.mem_singleton]
      tauto
  · rw [if_neg h2i, nth_set _ _ _ _ hb1]
    by_cases h1i : b1 = i
    · subst h1i
      rw [if_pos rfl]
      simp only [List.mem_append, List.mem_singleton]
      tauto
    · rw [if_neg h1i]
      tauto

theorem mem_nth_foldl_addBond (bonds : List (ℕ × ℕ)) (acc : List (List ℕ))
    (hb : ∀ b ∈ bonds, b.1 < acc.length ∧ b.2 < acc.length) (i j : ℕ) :
    j ∈ nth (bonds.foldl addBond acc) i ↔
      j ∈ nth acc i ∨ ∃ b ∈ bonds, (b.1 = i ∧ j = b.2) ∨ (b.2 = i ∧ j = b.1) := by
  induction bonds generalizing acc with
  | nil => simp
  | cons b rest ih =>
    obtain ⟨b1, b2⟩ := b
    have hb0 := hb (b1, b2) (List.mem_cons_self _ rest)
    rw [List.foldl_cons,
      ih (addBond acc (b1, b2))
        (by intro c hc; rw [length_addBond]; exact hb c (List.mem_cons_of_mem _ hc)),
      mem_nth_addBond acc b1 b2 i j hb0.1 hb0.2]
    simp only [List.mem_cons]
    constructor
    · rintro ((h | h) | ⟨c, hc, h⟩)
      · exact Or.inl h
      · exact Or.inr ⟨(b1, b2), Or.inl rfl, h⟩
      · exact Or.inr ⟨c, Or.inr hc, h⟩
    · rintro (h | ⟨c, (rfl | hc), h⟩)
      · exact Or.inl (Or.inl h)
      · exact Or.inl (Or.inr h)
      · exact Or.inr ⟨c, hc, h⟩

/-- C6: both neighbour-list constructions produce a symmetric relation:
for the bond-length construction unconditionally, and for the bond-set
construction whenever every bond endpoint is a valid particle index. -/
theorem ngbList_symmetric (pts : List V3) (radius bondLength : ℚ)
    (n : ℕ) (bonds : List (ℕ × ℕ)) (hb : ∀ b ∈ bonds, b.1 < n ∧ b.2 < n)
    (i j : ℕ) :
    (j ∈ nth (makeNgbListLength pts radius bondLength) i ↔
      i ∈ nth (makeNgbListLength pts radius bondLength) j) ∧
    (j ∈ nth (makeNgbListBonds n bonds) i ↔
      i ∈ nth (makeNgbListBonds n bonds) j) := by
  constructor
  · rw [mem_nth_makeNgbListLength, mem_nth_makeNgbListLength,
      mem_getEuclidianNeighboursI, mem_getEuclidianNeighboursI,
      holds_bounds_comm, dist2_comm]
    constructor
    · rintro ⟨h1, h2, h3, h4, h5⟩
      exact ⟨h2, h1, h3, fun h => h4 h.symm, h5⟩
    · rintro ⟨h1, h2, h3, h4, h5⟩
      exact ⟨h2, h1, h3, fun h => h4 h.symm, h5⟩
  · unfold makeNgbListBonds
    rw [mem_nth_foldl_addBond _ _ (by simpa using hb),
      mem_nth_foldl_addBond _ _ (by simpa using hb)]
    have hnil : ∀ k m : ℕ, m ∈ nth (List.replicate n ([] : List ℕ)) k ↔ False := by
      intro k m
      unfold nth
      rcases Nat.lt_or_ge k n with h | h
      · rw [List.getD_eq_getElem _ _ (by simpa using h)]
        simp
      · rw [List.getD_eq_default _ _ (by simpa using h)]
        simp
    rw [hnil, hnil]
    simp only [false_or]
    constructor
    · rintro ⟨b, hbm, (⟨h1, h2⟩ | ⟨h1, h2⟩)⟩
      · exact ⟨b, hbm, Or.inr ⟨h2.symm, h1.symm⟩⟩
      · exact ⟨b, hbm, Or.inl ⟨h2.symm, h1.symm⟩⟩
    · rintro ⟨b, hbm, (⟨h1, h2⟩ | ⟨h1, h2⟩)⟩
      · exact ⟨b, hbm, Or.inr ⟨h2.symm, h1.symm⟩⟩
      · exact ⟨b, hbm, Or.inl ⟨h2.symm, h1.symm⟩⟩

/-- Witness for C6 at a concrete input: two particles one diameter apart,
one explicit bond. -/
theorem ngbList_symmetric_witness :
    (∀ b ∈ [((0 : ℕ), (1 : ℕ))], b.1 < 2 ∧ b.2 < 2) ∧
    ((1 ∈ nth (makeNgbListLength [V3.zero, ⟨1, 0, 0⟩] 1 1) 0 ↔
      0 ∈ nth (makeNgbListLength [V3.zero, ⟨1, 0, 0⟩] 1 1) 1) ∧
    (1 ∈ nth (makeNgbListBonds 2 [(0, 1)]) 0 ↔
      0 ∈ nth (makeNgbListBonds 2 [(0, 1)]) 1)) :=
  ⟨by decide,
   ngbList_symmetric [V3.zero, ⟨1, 0, 0⟩] 1 1 2 [(0, 1)] (by decide) 0 1⟩

/-! ## Cut by minimum separation (C8) -/

theorem isEmpty_ENC_iff (out : List V3) (p : V3) (sep : ℚ) (hsep : 0 ≤ sep) :
    (getEuclidianNeighboursC out p sep).isEmpty =
      out.all (fun q => decide (sep * sep ≤ dist2 q p)) := by
  rw [Bool.eq_iff_iff, List.isEmpty_iff, List.eq_nil_iff_forall_not_mem,
    List.all_eq_true]
  simp only [decide_eq_true_eq]
  constructor
  · intro h q hq
    obtain ⟨k, hk, rfl⟩ := List.mem_iff_getElem.mp hq
    have hmem := h k
    rw [mem_getEuclidianNeighboursC_iff out p sep hsep k] at hmem
    push_neg at hmem
    have := hmem hk
    rw [pt_eq_getElem out k hk] at this
    rw [dist2_comm]
    exact this
  · intro h k hk
    rw [mem_getEuclidianNeighboursC_iff out p sep hsep k] at hk
    obtain ⟨h1, h2⟩ := hk
    have hmem : pt out k ∈ out := by
      rw [pt_eq_getElem out k h1]
      exact List.getElem_mem h1
    have := h (pt out k) hmem
    rw [dist2_comm] at this
    exact absurd h2 (not_lt.mpr this)

theorem cut_foldl_pairwise (sep : ℚ) (hsep : 0 ≤ sep) (pts : List V3) :
    ∀ out : List V3, out.Pairwise (fun a b => sep * sep ≤ dist2 a b) →
    (pts.foldl
      (fun out p => if (getEuclidianNeighboursC out p sep).isEmpty then out ++ [p] else out)
      out).Pairwise (fun a b => sep * sep ≤ dist2 a b) := by
  induction pts with
  | nil => intro out h; simpa using h
  | cons p rest ih =>
    intro out h
    rw [List.foldl_cons]
    apply ih
    by_cases hc : (getEuclidianNeighboursC out p sep).isEmpty = true
    · rw [if_pos hc, List.pairwise_append]
      refine ⟨h, by simp, ?_⟩
      intro a ha b hb
      rw [isEmpty_ENC_iff out p sep hsep, List.all_eq_true] at hc
      have ha2 := hc a ha
      rw [List.mem_singleton] at hb
      rw [hb]
      simpa using ha2
    · rw [if_neg hc]
      exact h

/-- C8: for a nonnegative separation, `cut(sep)` returns exactly the
greedy first-come-first-served selection (a point is kept iff no
previously kept point is at squared distance below `sep * sep`), and the
returned points are pairwise at squared distance at least `sep * sep`,
i.e. at Euclidean distance at least `sep`. -/
theorem cut_exact (pts : List V3) (sep : ℚ) (hsep : 0 ≤ sep) :
    cut pts sep = cutSpec pts sep ∧
    (cut pts sep).Pairwise (fun a b => sep * sep ≤ dist2 a b) := by
  constructor
  · unfold cut cutSpec
    congr 1
    funext out p
    rw [isEmpty_ENC_iff out p sep hsep]
  · exact cut_foldl_pairwise sep hsep pts [] (by simp)

/-- Witness for C8 at a concrete input: three collinear points with
separation 2; the middle point is rejected, the outer two are kept. -/
theorem cut_exact_witness :
    (0 : ℚ) ≤ 2 ∧
    (cut [V3.zero, ⟨1, 0, 0⟩, ⟨3, 0, 0⟩] 2 = cutSpec [V3.zero, ⟨1, 0, 0⟩, ⟨3, 0, 0⟩] 2 ∧
     (cut [V3.zero, ⟨1, 0, 0⟩, ⟨3, 0, 0⟩] 2).Pairwise
       (fun a b => (2 : ℚ) * 2 ≤ dist2 a b)) :=
  ⟨by norm_num, cut_exact [V3.zero, ⟨1, 0, 0⟩, ⟨3, 0, 0⟩] 2 (by norm_num)⟩

/-! ## Topological clusters: 1551 pairs (C7) -/

theorem dropWhile_lt_eq_filter (k : ℕ) :
    ∀ l : List ℕ, l.Pairwise (· < ·) →
      l.dropWhile (fun q => decide (q < k)) = l.filter (fun q => decide (k ≤ q)) := by
  intro l
  induction l with
  | nil => intro _; rfl
  | cons a t ih =>
    intro h
    rw [List.pairwise_cons] at h
    by_cases ha : a < k
    · rw [List.dropWhile_cons_of_pos (by simpa using ha),
        List.filter_cons_of_neg (by simpa using ha)]
      exact ih h.2
    · rw [List.dropWhile_cons_of_neg (by simpa using ha),
        List.filter_cons_of_pos (by simpa using Nat.le_of_not_lt ha)]
      have : t.filter (fun q => decide (k ≤ q)) = t := by
        apply List.filter_eq_self.mpr
        intro x hx
        have := h.1 x hx
        simp only [decide_eq_true_eq]
        omega
      rw [this]

theorem not_mem_of_lt_head (a b : ℕ) (bs : List ℕ)
    (hab : a < b) (hs : (b :: bs).Pairwise (· < ·)) : a ∉ b :: bs := by
  rw [List.pairwise_cons] at hs
  intro hmem
  rcases List.mem_cons.mp hmem with h | h
  · omega
  · have := hs.1 a h
    omega

theorem interSorted_eq_filter :
    ∀ l1 l2 : List ℕ, l1.Pairwise (· < ·) → l2.Pairwise (· < ·) →
      interSorted l1 l2 = l1.filter (fun a => decide (a ∈ l2)) := by
  intro l1
  induction l1 with
  | nil => intro l2 _ _; cases l2 <;> simp [interSorted]
  | cons a as ih1 =>
    intro l2 h1 h2
    induction l2 with
    | nil => simp [interSorted]
    | cons b bs ih2 =>
      rw [List.pairwise_cons] at h1
      by_cases hab : a < b
      · rw [show interSorted (a :: as) (b :: bs) = interSorted as (b :: bs) by
          rw [interSorted]; rw [if_pos hab]]
        rw [ih1 (b :: bs) h1.2 h2,
          List.filter_cons_of_neg
            (by simpa using not_mem_of_lt_head a b bs hab h2)]
      · by_cases hba : b < a
        · rw [show interSorted (a :: as) (b :: bs) = interSorted (a :: as) bs by
            rw [interSorted]; rw [if_neg hab, if_pos hba]]
          rw [List.pairwise_cons] at h2
          rw [ih2 h2.2]
          apply List.filter_congr
          intro x hx
          have hxa : b < x := by
            rcases List.mem_cons.mp hx with h | h
            · omega
            · have := h1.1 x h; omega
          simp only [decide_eq_true_eq, List.mem_cons]
          rw [Bool.eq_iff_iff]
          simp only [decide_eq_true_eq]
          constructor
          · intro h; exact Or.inr h
          · rintro (h | h)
            · omega
            · exact h
        · have hab2 : a = b := by omega
          subst hab2
          rw [show interSorted (a :: as) (a :: bs) = a :: interSorted as bs by
            rw [interSorted]; rw [if_neg hab, if_neg hba]]
          rw [List.pairwise_cons] at h2
          rw [ih1 bs h1.2 h2.2,
            List.filter_cons_of_pos (by simp)]
          congr 1
          apply List.filter_congr
          intro x hx
          have hxa : a < x := h1.1 x hx
          rw [Bool.eq_iff_iff]
          simp only [decide_eq_true_eq, List.mem_cons]
          constructor
          · intro h; exact Or.inr h
          · rintro (h | h)
            · omega
            · exact h

theorem nth_pairwise (ngb : List (List ℕ)) (h : ∀ l ∈ ngb, l.Pairwise (· < ·))
    (i : ℕ) : (nth ngb i).Pairwise (· < ·) := by
  unfold nth
  rcases Nat.lt_or_ge i ngb.length with hi | hi
  · rw [List.getD_eq_getElem _ _ (by simpa using hi)]
    exact h _ (List.getElem_mem hi)
  · rw [List.getD_eq_default _ _ (by simpa using hi)]
    exact List.Pairwise.nil

theorem nth_entries_lt (ngb : List (List ℕ))
    (h : ∀ l ∈ ngb, ∀ x ∈ l, x < ngb.length) (i : ℕ) :
    ∀ x ∈ nth ngb i, x < ngb.length := by
  unfold nth
  rcases Nat.lt_or_ge i ngb.length with hi | hi
  · rw [List.getD_eq_getElem _ _ (by simpa using hi)]
    exact h _ (List.getElem_mem hi)
  · rw [List.getD_eq_default _ _ (by simpa using hi)]
    intro x hx
    simp at hx

theorem mem_nth_lt (ngb : List (List ℕ)) (p q : ℕ) (h : q ∈ nth ngb p) :
    p < ngb.length := by
  by_contra hp
  unfold nth at h
  rw [List.getD_eq_default _ _ (by omega)] at h
  simp at h

/-- C7: with a valid (row-sorted, in-range) neighbour list, `get1551pairs`
returns exactly the pairs `(p, q)` with `p < q`, `q` a neighbour of `p`,
whose set `S` of common neighbours has exactly 5 elements and forms a
ring: every `c` in `S` has exactly 2 elements of `S` in its neighbour
list. -/
theorem get1551pairs_exact (ngb : List (List ℕ)) (hv : NgbValid ngb)
    (p q : ℕ) :
    (p, q) ∈ get1551pairs ngb ↔
      p < q ∧ q ∈ nth ngb p ∧
      ((nth ngb p).filter (fun a => decide (a ∈ nth ngb q))).length = 5 ∧
      ∀ c ∈ (nth ngb p).filter (fun a => decide (a ∈ nth ngb q)),
        ((nth ngb c).filter
          (fun a =>
            decide (a ∈ (nth ngb p).filter (fun x => decide (x ∈ nth ngb q))))).length = 2 := by
  obtain ⟨hs, _⟩ := hv
  have hrowp := nth_pairwise ngb hs p
  have hrowq := nth_pairwise ngb hs q
  have hcommon : interSorted (nth ngb p) (nth ngb q) =
      (nth ngb p).filter (fun a => decide (a ∈ nth ngb q)) :=
    interSorted_eq_filter _ _ hrowp hrowq
  have hcsorted : ((nth ngb p).filter (fun a => decide (a ∈ nth ngb q))).Pairwise (· < ·) :=
    hrowp.filter _
  unfold get1551pairs
  rw [List.mem_flatMap]
  constructor
  · rintro ⟨p1, hp1, hin⟩
    rw [List.mem_filterMap] at hin
    obtain ⟨q1, hq1, hsome⟩ := hin
    split_ifs at hsome with hcond
    · rw [Option.some_inj, Prod.mk.injEq] at hsome
      obtain ⟨rfl, rfl⟩ := hsome
      rw [dropWhile_lt_eq_filter _ _ hrowp, List.mem_filter] at hq1
      obtain ⟨hqmem, hple⟩ := hq1
      rw [hcommon] at hcond
      obtain ⟨h5, hring⟩ := hcond
      refine ⟨by simpa using hple, hqmem, h5, ?_⟩
      unfold is_ring at hring
      rw [List.all_eq_true] at hring
      intro c hc
      have := hring c hc
      rw [decide_eq_true_eq,
        interSorted_eq_filter _ _ (nth_pairwise ngb hs c) hcsorted] at this
      exact this
  · rintro ⟨hpq, hqmem, h5, hring⟩
    refine ⟨p, by simpa using mem_nth_lt ngb p q hqmem, ?_⟩
    rw [List.mem_filterMap]
    refine ⟨q, ?_, ?_⟩
    · rw [dropWhile_lt_eq_filter _ _ hrowp, List.mem_filter]
      exact ⟨hqmem, by simpa using hpq⟩
    · rw [if_pos]
      rw [hcommon]
      refine ⟨h5, ?_⟩
      unfold is_ring
      rw [List.all_eq_true]
      intro c hc
      rw [decide_eq_true_eq,
        interSorted_eq_filter _ _ (nth_pairwise ngb hs c) hcsorted]
      exact hring c hc

/-- Witness for C7 at a concrete input: a pentagonal bipyramid; the apex
bond (5,6) has the five equatorial particles as common neighbours and they
form a 5-ring, so (5,6) is reported as a 1551 pair. -/
theorem get1551pairs_exact_witness :
    NgbValid [[1, 4, 5, 6], [0, 2, 5, 6], [1, 3, 5, 6], [2, 4, 5, 6],
        [0, 3, 5, 6], [0, 1, 2, 3, 4, 6], [0, 1, 2, 3, 4, 5]] ∧
    ((5, 6) ∈ get1551pairs [[1, 4, 5, 6], [0, 2, 5, 6], [1, 3, 5, 6], [2, 4, 5, 6],
        [0, 3, 5, 6], [0, 1, 2, 3, 4, 6], [0, 1, 2, 3, 4, 5]] ↔
      5 < 6 ∧
      6 ∈ nth [[1, 4, 5, 6], [0, 2, 5, 6], [1, 3, 5, 6], [2, 4, 5, 6],
        [0, 3, 5, 6], [0, 1, 2, 3, 4, 6], [0, 1, 2, 3, 4, 5]] 5 ∧
      ((nth [[1, 4, 5, 6], [0, 2, 5, 6], [1, 3, 5, 6], [2, 4, 5, 6],
        [0, 3, 5, 6], [0, 1, 2, 3, 4, 6], [0, 1, 2, 3, 4, 5]] 5).filter
          (fun a => decide (a ∈ nth [[1, 4, 5, 6], [0, 2, 5, 6], [1, 3, 5, 6], [2, 4, 5, 6],
            [0, 3, 5, 6], [0, 1, 2, 3, 4, 6], [0, 1, 2, 3, 4, 5]] 6))).length = 5 ∧
      ∀ c ∈ (nth [[1, 4, 5, 6], [0, 2, 5, 6], [1, 3, 5, 6], [2, 4, 5, 6],
            [0, 3, 5, 6], [0, 1, 2, 3, 4, 6], [0, 1, 2, 3, 4, 5]] 5).filter
          (fun a => decide (a ∈ nth [[1, 4, 5, 6], [0, 2, 5, 6], [1, 3, 5, 6], [2, 4, 5, 6],
            [0, 3, 5, 6], [0, 1, 2, 3, 4, 6], [0, 1, 2, 3, 4, 5]] 6)),
        ((nth [[1, 4, 5, 6], [0, 2, 5, 6], [1, 3, 5, 6], [2, 4, 5, 6],
            [0, 3, 5, 6], [0, 1, 2, 3, 4, 6], [0, 1, 2, 3, 4, 5]] c).filter
          (fun a =>
            decide (a ∈ (nth [[1, 4, 5, 6], [0, 2, 5, 6], [1, 3, 5, 6], [2, 4, 5, 6],
              [0, 3, 5, 6], [0, 1, 2, 3, 4, 6], [0, 1, 2, 3, 4, 5]] 5).filter
              (fun x => decide (x ∈ nth [[1, 4, 5, 6], [0, 2, 5, 6], [1, 3, 5, 6], [2, 4, 5, 6],
                [0, 3, 5, 6], [0, 1, 2, 3, 4, 6], [0, 1, 2, 3, 4, 5]] 6))))).length = 2) :=
  ⟨⟨by decide, by decide⟩,
   get1551pairs_exact _ ⟨by decide, by decide⟩ 5 6⟩

/-! ## Bond-orientational order (C2)

`BooData` is a `valarray` of 36 complex coefficients.  The spherical
harmonic of a single bond (`BooData(const Coord&)`, implemented in the
missing `boo.cpp`) is kept abstract as a parameter `Y`; claims about
zero-bond particles hold for every choice of it.  Complex `double`
arithmetic is idealized over the rationals, except that division by the
complex zero — which produces NaN in IEEE arithmetic — is modelled by the
`Option` marker `none`. -/

theorem coefB_zeroBoo (l m : ℕ) : coefB zeroBoo l m = QC.zero := by
  unfold coefB
  split <;> rfl

theorem coefSigned_zeroBoo (l : ℕ) (m : ℤ) : coefSigned zeroBoo l m = QC.zero := by
  unfold coefSigned
  split
  · exact coefB_zeroBoo l _
  · rw [coefB_zeroBoo]
    unfold smulQC conjQC QC.zero
    simp

theorem getSumNorm_zeroBoo (l : ℕ) : getSumNorm l zeroBoo = 0 := by
  unfold getSumNorm
  simp [coefB_zeroBoo, normSqQC, QC.zero]

theorem getQl_zeroBoo (l : ℕ) : getQl l zeroBoo = 0 := by
  unfold getQl
  rw [getSumNorm_zeroBoo]
  push_cast
  rw [mul_zero, Real.sqrt_zero]

theorem foldl_addQC_zero : ∀ L : List QC, (∀ x ∈ L, x = QC.zero) →
    L.foldl addQC QC.zero = QC.zero := by
  intro L
  induction L with
  | nil => intro _; rfl
  | cons a t ih =>
    intro h
    rw [List.foldl_cons, h a (List.mem_cons_self a t)]
    have : addQC QC.zero QC.zero = QC.zero := by
      unfold addQC QC.zero; simp
    rw [this]
    exact ih (fun x hx => h x (List.mem_cons_of_mem a hx))

theorem getWl_zeroBoo (w3 : ℕ → ℤ → ℤ → ℚ) (l : ℕ) :
    getWl w3 l zeroBoo = QC.zero := by
  unfold getWl
  apply foldl_addQC_zero
  intro x hx
  rw [List.mem_flatMap] at hx
  obtain ⟨i1, _, hx⟩ := hx
  rw [List.mem_filterMap] at hx
  obtain ⟨i2, _, hx⟩ := hx
  simp only [] at hx
  split_ifs at hx
  rw [Option.some_inj] at hx
  rw [← hx, coefSigned_zeroBoo, coefSigned_zeroBoo, coefSigned_zeroBoo]
  unfold mulQC smulQC QC.zero
  simp

/-- C2 (divergence found): for the concrete neighbour list
`[[], [2], [1]]` — particle 0 has no bonds, particles 1 and 2 share one
bond — and any bond-harmonic function `Y`: the per-particle `getBOO`
leaves particle 0 with the zero descriptor and the invariants of the zero
descriptor all vanish (as the claim says), but the whole-set traversal
`getBOOs` normalises particle 0 by `complex(0, 0)`: its descriptor is the
NaN marker `none`, not the zero vector. -/
theorem getBOOs_zero_bond_divergence (Y : ℕ → ℕ → BooData) :
    getBOO Y [[], [2], [1]] 0 = zeroBoo ∧
    (getBOOs Y [[], [2], [1]]).getD 0 (some zeroBoo) = none ∧
    (∀ l : ℕ, getQl l zeroBoo = 0) ∧
    (∀ (w3 : ℕ → ℤ → ℤ → ℚ) (l : ℕ), getWl w3 l zeroBoo = QC.zero) := by
  refine ⟨rfl, ?_, getQl_zeroBoo, getWl_zeroBoo⟩
  rfl

/-! ## Trajectory index (`src/multiscale/traj.cpp`): C1, C4, C9 -/

theorem usedA_length (n : ℕ) (s : List ℕ) : (usedA n s).length = n := by
  simp [usedA]

theorem usedA_getD (n : ℕ) (s : List ℕ) (i : ℕ) (d : Bool) (h : i < n) :
    (usedA n s).getD i d = decide (i ∈ s) := by
  unfold usedA
  rw [List.getD_eq_getElem _ _ (by simpa using h)]
  simp

theorem usedA_set_true (n : ℕ) (s : List ℕ) (i : ℕ) (_h : i < n) :
    (usedA n s).set i true = usedA n (i :: s) := by
  apply List.ext_getElem
  · simp [usedA]
  · intro j h1 h2
    rw [List.getElem_set]
    unfold usedA
    simp only [List.getElem_map, List.getElem_range]
    by_cases hij : i = j
    · rw [if_pos hij]
      subst hij
      simp
    · rw [if_neg hij]
      rw [Bool.eq_iff_iff]
      simp only [decide_eq_true_eq, List.mem_cons]
      constructor
      · exact Or.inr
      · rintro (h | h)
        · exact absurd h.symm hij
        · exact h

theorem usedA_congr (n : ℕ) (s s2 : List ℕ) (h : ∀ i, i ∈ s ↔ i ∈ s2) :
    usedA n s = usedA n s2 := by
  unfold usedA
  apply List.map_congr_left
  intro i _
  rw [Bool.eq_iff_iff]
  simp only [decide_eq_true_eq]
  exact h i

theorem greedyLinks_sublist : ∀ (L : List Link) (uf ut : List ℕ),
    (greedyLinks L uf ut).Sublist L := by
  intro L
  induction L with
  | nil => intro uf ut; simp [greedyLinks]
  | cons l rest ih =>
    intro uf ut
    rw [greedyLinks]
    split
    · exact List.Sublist.cons₂ l (ih _ _)
    · exact List.Sublist.cons l (ih _ _)

theorem greedyLinks_la_fresh : ∀ (L : List Link) (uf ut : List ℕ),
    ((greedyLinks L uf ut).map (fun l => l.la)).Nodup ∧
    ∀ x ∈ (greedyLinks L uf ut).map (fun l => l.la), x ∉ uf := by
  intro L
  induction L with
  | nil => intro uf ut; simp [greedyLinks]
  | cons l rest ih =>
    intro uf ut
    rw [greedyLinks]
    split
    · rename_i hc
      obtain ⟨ihn, ihf⟩ := ih (l.la :: uf) (l.lb :: ut)
      simp only [List.map_cons, List.nodup_cons]
      refine ⟨⟨?_, ihn⟩, ?_⟩
      · intro hmem
        exact (ihf l.la hmem) (List.mem_cons_self _ _)
      · intro x hx
        rcases List.mem_cons.mp hx with h | h
        · subst h; exact hc.1
        · intro hxuf
          exact (ihf x h) (List.mem_cons_of_mem _ hxuf)
    · exact ih uf ut

theorem greedyLinks_lb_fresh : ∀ (L : List Link) (uf ut : List ℕ),
    ((greedyLinks L uf ut).map (fun l => l.lb)).Nodup ∧
    ∀ x ∈ (greedyLinks L uf ut).map (fun l => l.lb), x ∉ ut := by
  intro L
  induction L with
  | nil => intro uf ut; simp [greedyLinks]
  | cons l rest ih =>
    intro uf ut
    rw [greedyLinks]
    split
    · rename_i hc
      obtain ⟨ihn, ihf⟩ := ih (l.la :: uf) (l.lb :: ut)
      simp only [List.map_cons, List.nodup_cons]
      refine ⟨⟨?_, ihn⟩, ?_⟩
      · intro hmem
        exact (ihf l.lb hmem) (List.mem_cons_self _ _)
      · intro x hx
        rcases List.mem_cons.mp hx with h | h
        · subst h; exact hc.2
        · intro hxut
          exact (ihf x h) (List.mem_cons_of_mem _ hxut)
    · exact ih uf ut

/-! Pointwise behaviour of the accepted-link folds. -/

theorem nmFold_cons (prevMap : List ℕ) (l : Link) (rest : List Link)
    (newMap : List ℕ) :
    nmFold prevMap (l :: rest) newMap =
      nmFold prevMap rest (newMap.set l.lb (prevMap.getD l.la 0)) := rfl

theorem trFold_cons (prevMap : List ℕ) (l : Link) (rest : List Link)
    (trs : List Traj) :
    trFold prevMap (l :: rest) trs =
      trFold prevMap rest
        (trs.set (prevMap.getD l.la 0)
          (pushTraj (trs.getD (prevMap.getD l.la 0) ⟨0, []⟩) l.lb)) := rfl

theorem foldl_linkStep_char (prevMap : List ℕ) :
    ∀ (L : List Link) (nF nT : ℕ) (uf ut : List ℕ) (newMap : List ℕ)
      (trs : List Traj),
    (∀ l ∈ L, l.la < nF ∧ l.lb < nT) →
    L.foldl (linkStep prevMap) ⟨usedA nF uf, usedA nT ut, newMap, trs⟩ =
      ⟨usedA nF ((greedyLinks L uf ut).map (fun l => l.la) ++ uf),
       usedA nT ((greedyLinks L uf ut).map (fun l => l.lb) ++ ut),
       nmFold prevMap (greedyLinks L uf ut) newMap,
       trFold prevMap (greedyLinks L uf ut) trs⟩ := by
  intro L
  induction L with
  | nil => intro nF nT uf ut newMap trs _; simp [greedyLinks, nmFold, trFold]
  | cons l rest ih =>
    intro nF nT uf ut newMap trs hL
    obtain ⟨hla, hlb⟩ := hL l (List.mem_cons_self _ _)
    have hrest : ∀ x ∈ rest, x.la < nF ∧ x.lb < nT :=
      fun x hx => hL x (List.mem_cons_of_mem _ hx)
    rw [List.foldl_cons, greedyLinks]
    by_cases hc : l.la ∉ uf ∧ l.lb ∉ ut
    · rw [if_pos hc]
      have hstep : linkStep prevMap ⟨usedA nF uf, usedA nT ut, newMap, trs⟩ l =
          ⟨usedA nF (l.la :: uf), usedA nT (l.lb :: ut),
           newMap.set l.lb (prevMap.getD l.la 0),
           trs.set (prevMap.getD l.la 0)
             (pushTraj (trs.getD (prevMap.getD l.la 0) ⟨0, []⟩) l.lb)⟩ := by
        unfold linkStep
        rw [if_pos]
        · simp only [usedA_set_true nF uf l.la hla, usedA_set_true nT ut l.lb hlb]
        · rw [usedA_getD nF uf l.la true hla, usedA_getD nT ut l.lb true hlb]
          simp only [decide_eq_false_iff_not]
          exact hc
      rw [hstep, ih nF nT (l.la :: uf) (l.lb :: ut) _ _ hrest]
      simp only [List.map_cons, nmFold_cons, trFold_cons]
      congr 1
      · apply usedA_congr
        intro i
        simp only [List.mem_append, List.mem_cons]
        tauto
      · apply usedA_congr
        intro i
        simp only [List.mem_append, List.mem_cons]
        tauto
    · rw [if_neg hc]
      have hstep : linkStep prevMap ⟨usedA nF uf, usedA nT ut, newMap, trs⟩ l =
          ⟨usedA nF uf, usedA nT ut, newMap, trs⟩ := by
        unfold linkStep
        rw [if_neg]
        rw [usedA_getD nF uf l.la true hla, usedA_getD nT ut l.lb true hlb]
        simp only [decide_eq_false_iff_not]
        exact hc
      rw [hstep, ih nF nT uf ut newMap trs hrest]

theorem nmFold_length (prevMap : List ℕ) : ∀ (A : List Link) (newMap : List ℕ),
    (nmFold prevMap A newMap).length = newMap.length := by
  intro A
  induction A with
  | nil => intro newMap; rfl
  | cons l rest ih =>
    intro newMap
    rw [nmFold_cons, ih]
    simp

theorem trFold_length (prevMap : List ℕ) : ∀ (A : List Link) (trs : List Traj),
    (trFold prevMap A trs).length = trs.length := by
  intro A
  induction A with
  | nil => intro trs; rfl
  | cons l rest ih =>
    intro trs
    rw [trFold_cons, ih]
    simp

theorem getD_set_self (l : List ℕ) (i : ℕ) (v : ℕ) (h : i < l.length) :
    (l.set i v).getD i 0 = v := by
  rw [List.getD_eq_getElem _ _ (by simpa using h), List.getElem_set, if_pos rfl]

theorem getD_set_other (l : List ℕ) (i j : ℕ) (v : ℕ) (h : i ≠ j) :
    (l.set i v).getD j 0 = l.getD j 0 := by
  rcases Nat.lt_or_ge j l.length with hj | hj
  · rw [List.getD_eq_getElem _ _ (by simpa using hj),
      List.getD_eq_getElem _ _ hj, List.getElem_set, if_neg h]
  · rw [List.getD_eq_default _ _ (by simpa using hj),
      List.getD_eq_default _ _ (by simpa using hj)]

theorem getD_setT_self (l : List Traj) (i : ℕ) (v : Traj) (h : i < l.length) :
    (l.set i v).getD i ⟨0, []⟩ = v := by
  rw [List.getD_eq_getElem _ _ (by simpa using h), List.getElem_set, if_pos rfl]

theorem getD_setT_other (l : List Traj) (i j : ℕ) (v : Traj) (h : i ≠ j) :
    (l.set i v).getD j ⟨0, []⟩ = l.getD j ⟨0, []⟩ := by
  rcases Nat.lt_or_ge j l.length with hj | hj
  · rw [List.getD_eq_getElem _ _ (by simpa using hj),
      List.getD_eq_getElem _ _ hj, List.getElem_set, if_neg h]
  · rw [List.getD_eq_default _ _ (by simpa using hj),
      List.getD_eq_default _ _ (by simpa using hj)]

theorem nmFold_getD_notmem (prevMap : List ℕ) :
    ∀ (A : List Link) (newMap : List ℕ) (p : ℕ),
    p ∉ A.map (fun l => l.lb) →
    (nmFold prevMap A newMap).getD p 0 = newMap.getD p 0 := by
  intro A
  induction A with
  | nil => intro newMap p _; rfl
  | cons l rest ih =>
    intro newMap p hp
    simp only [List.map_cons, List.mem_cons] at hp
    push_neg at hp
    rw [nmFold_cons, ih _ _ hp.2, getD_set_other _ _ _ _ (fun h => hp.1 h.symm)]

theorem nmFold_getD_mem (prevMap : List ℕ) :
    ∀ (A : List Link) (newMap : List ℕ) (l : Link),
    l ∈ A → (A.map (fun x => x.lb)).Nodup → l.lb < newMap.length →
    (nmFold prevMap A newMap).getD l.lb 0 = prevMap.getD l.la 0 := by
  intro A
  induction A with
  | nil => intro _ _ h; simp at h
  | cons x rest ih =>
    intro newMap l hl hnd hlen
    simp only [List.map_cons, List.nodup_cons] at hnd
    rw [nmFold_cons]
    rcases List.mem_cons.mp hl with h | h
    · subst h
      rw [nmFold_getD_notmem prevMap rest _ _ hnd.1,
        getD_set_self _ _ _ hlen]
    · exact ih _ l h hnd.2 (by simpa using hlen)

theorem trFold_getD_notmem (prevMap : List ℕ) :
    ∀ (A : List Link) (trs : List Traj) (tr : ℕ),
    tr ∉ A.map (fun l => prevMap.getD l.la 0) →
    (trFold prevMap A trs).getD tr ⟨0, []⟩ = trs.getD tr ⟨0, []⟩ := by
  intro A
  induction A with
  | nil => intro trs tr _; rfl
  | cons l rest ih =>
    intro trs tr hp
    simp only [List.map_cons, List.mem_cons] at hp
    push_neg at hp
    rw [trFold_cons, ih _ _ hp.2, getD_setT_other _ _ _ _ (fun h => hp.1 h.symm)]

theorem trFold_getD_mem (prevMap : List ℕ) :
    ∀ (A : List Link) (trs : List Traj) (l : Link),
    l ∈ A → (A.map (fun x => prevMap.getD x.la 0)).Nodup →
    prevMap.getD l.la 0 < trs.length →
    (trFold prevMap A trs).getD (prevMap.getD l.la 0) ⟨0, []⟩ =
      pushTraj (trs.getD (prevMap.getD l.la 0) ⟨0, []⟩) l.lb := by
  intro A
  induction A with
  | nil => intro _ _ h; simp at h
  | cons x rest ih =>
    intro trs l hl hnd hlen
    simp only [List.map_cons, List.nodup_cons] at hnd
    rw [trFold_cons]
    rcases List.mem_cons.mp hl with h | h
    · subst h
      rw [trFold_getD_notmem prevMap rest _ _ hnd.1,
        getD_setT_self _ _ _ hlen]
    · by_cases hsame : prevMap.getD x.la 0 = prevMap.getD l.la 0
      · exact absurd (hsame ▸ (List.mem_map.mpr ⟨l, h, rfl⟩)) hnd.1
      · rw [ih _ l h hnd.2 (by simpa using hlen), getD_setT_other _ _ _ _ hsame]

/-! Behaviour of the new-trajectory creation loop. -/

theorem createNew_go (toUsed : List Bool) (nframes : ℕ) :
    ∀ (ps : List ℕ) (nm : List ℕ) (trs : List Traj),
    ps.foldl
      (fun acc p =>
        if toUsed.getD p true = false then
          (acc.1.set p acc.2.length, acc.2 ++ [(⟨nframes, [p]⟩ : Traj)])
        else acc)
      (nm, trs) =
    (assignMiss trs.length nm (ps.filter (fun p => !(toUsed.getD p true))),
     trs ++ (ps.filter (fun p => !(toUsed.getD p true))).map
       (fun p => (⟨nframes, [p]⟩ : Traj))) := by
  intro ps
  induction ps with
  | nil => intro nm trs; simp [assignMiss]
  | cons p rest ih =>
    intro nm trs
    rw [List.foldl_cons]
    by_cases hc : toUsed.getD p true = false
    · rw [if_pos hc, List.filter_cons_of_pos (by simpa using hc)]
      dsimp only
      rw [ih (nm.set p trs.length) (trs ++ [(⟨nframes, [p]⟩ : Traj)])]
      rw [assignMiss]
      simp
    · rw [if_neg hc, List.filter_cons_of_neg (by simpa using hc)]
      exact ih nm trs

theorem assignMiss_length : ∀ (ms : List ℕ) (base : ℕ) (nm : List ℕ),
    (assignMiss base nm ms).length = nm.length := by
  intro ms
  induction ms with
  | nil => intro base nm; rfl
  | cons p rest ih =>
    intro base nm
    rw [assignMiss, ih]
    simp

theorem assignMiss_getD_notmem : ∀ (ms : List ℕ) (base : ℕ) (nm : List ℕ) (p : ℕ),
    p ∉ ms → (assignMiss base nm ms).getD p 0 = nm.getD p 0 := by
  intro ms
  induction ms with
  | nil => intro base nm p _; rfl
  | cons q rest ih =>
    intro base nm p hp
    simp only [List.mem_cons] at hp
    push_neg at hp
    rw [assignMiss, ih _ _ _ hp.2, getD_set_other _ _ _ _ (fun h => hp.1 h.symm)]

theorem assignMiss_getD_mem : ∀ (ms : List ℕ) (base : ℕ) (nm : List ℕ) (k : ℕ)
    (hk : k < ms.length), ms.Nodup → ms.get ⟨k, hk⟩ < nm.length →
    (assignMiss base nm ms).getD (ms.get ⟨k, hk⟩) 0 = base + k := by
  intro ms
  induction ms with
  | nil => intro base nm k hk; simp at hk
  | cons q rest ih =>
    intro base nm k hk hnd hlt
    rw [List.nodup_cons] at hnd
    rw [assignMiss]
    match k with
    | 0 =>
      simp only [List.get] at hlt ⊢
      rw [assignMiss_getD_notmem rest _ _ _ hnd.1, getD_set_self _ _ _ hlt]
      omega
    | Nat.succ k0 =>
      simp only [List.get] at hlt ⊢
      have := ih (base + 1) (nm.set q base) k0 (by simpa using Nat.lt_of_succ_lt_succ hk)
        hnd.2 (by simpa using hlt)
      rw [this]
      omega

/-! ## add_Frame: failure analysis (C4, C9) -/

theorem addFrame_ok_eq (ti : TrajIndex) (frame_size : ℕ) (ds : List ℚ)
    (fs ts : List ℕ)
    (hlen : ds.length = fs.length ∧ fs.length = ts.length)
    (hne : ts ≠ [])
    (hmax : ∀ t ∈ ts, t < frame_size)
    (hfs : ∀ f ∈ fs, f < (ti.pos2tr.getLastD []).length) :
    addFrame ti frame_size ds fs ts =
      .ok (addFrameCore ti frame_size
        (List.zipWith (fun d ft => Link.mk d ft.1 ft.2) ds (fs.zip ts))) := by
  unfold addFrame
  rw [if_neg (not_not_intro hlen),
    if_neg (by simpa [List.isEmpty_iff] using hne)]
  cases hmx : ts.max? with
  | none => exact absurd (List.max?_eq_none_iff.mp hmx) hne
  | some m =>
    have hmem : m ∈ ts := List.max?_mem (fun a b => max_choice a b) hmx
    rw [if_neg (by simp only [hmx, Option.getD_some]; simpa using hmax m hmem),
      if_neg (not_not_intro (List.all_eq_true.mpr (fun f hf => by simpa using hfs f hf)))]

/-- C4 (corrected): `add_Frame` throws the size-mismatch argument error
iff the three arrays do not share one length; with equal sizes and a
nonempty `to`, it throws the range argument error iff `max(to) >=
frame_size`; and it completes normally when additionally every `from`
index is below the previous frame size.  (With empty arrays it
dereferences `max_element` of an empty range, and with an out-of-range
`from` index it reads `from_used` out of bounds: undefined behaviour, not
a normal completion — see the counterexample.) -/
theorem addFrame_error_exact (ti : TrajIndex) (frame_size : ℕ)
    (ds : List ℚ) (fs ts : List ℕ) :
    (addFrame ti frame_size ds fs ts = .error .sizeMismatch ↔
      ¬(ds.length = fs.length ∧ fs.length = ts.length)) ∧
    (∀ m, ts.max? = some m →
      (addFrame ti frame_size ds fs ts = .error .maxToOutOfRange ↔
        (ds.length = fs.length ∧ fs.length = ts.length) ∧ frame_size ≤ m)) ∧
    ((ds.length = fs.length ∧ fs.length = ts.length) → ts ≠ [] →
      (∀ t ∈ ts, t < frame_size) →
      (∀ f ∈ fs, f < (ti.pos2tr.getLastD []).length) →
      ∃ ti2, addFrame ti frame_size ds fs ts = .ok ti2) := by
  refine ⟨?_, ?_, ?_⟩
  · unfold addFrame
    by_cases h : ds.length = fs.length ∧ fs.length = ts.length
    · rw [if_neg (not_not_intro h)]
      split_ifs <;> simp [h]
    · rw [if_pos h]
      simp [h]
  · intro m hmx
    have hne : ¬ ts.isEmpty := by
      simp only [List.isEmpty_iff]
      intro hnil
      rw [hnil] at hmx
      simp at hmx
    unfold addFrame
    rw [hmx]
    by_cases h : ds.length = fs.length ∧ fs.length = ts.length
    · rw [if_neg (not_not_intro h), if_neg hne]
      simp only [Option.getD_some]
      split_ifs <;> simp [h, *]
    · rw [if_pos h]
      simp [h]
  · intro hlen hne hmax hfs
    exact ⟨_, addFrame_ok_eq ti frame_size ds fs ts hlen hne hmax hfs⟩

/-- Witness for C4 at concrete inputs: equal sizes with
`max(to) = 2 >= frame_size = 1` give the range argument error, and a
fully valid input completes normally. -/
theorem addFrame_error_exact_witness :
    (addFrame (mkTrajIndex 2) 1 [1] [0] [2] = .error .maxToOutOfRange ↔
      (([(1 : ℚ)].length = [(0 : ℕ)].length) ∧
        ([(0 : ℕ)].length = [(2 : ℕ)].length)) ∧ 1 ≤ 2) ∧
    (∃ ti2, addFrame (mkTrajIndex 2) 1 [1] [0] [0] = .ok ti2) :=
  ⟨(addFrame_error_exact (mkTrajIndex 2) 1 [1] [0] [2]).2.1 2 (by rfl),
   (addFrame_error_exact (mkTrajIndex 2) 1 [1] [0] [0]).2.2 (by simp)
     (by simp) (by simp) (by simp [mkTrajIndex])⟩

/-- C4 counterexample: the claim "for any input with equal sizes and
max(to) < new_size the call completes normally" fails: with the valid-
looking arrays `d=[1], from=[5], to=[0]` against a previous frame of
size 1, the loop would read `from_used[5]` out of bounds — undefined
behaviour, modelled as the `ub` outcome, not a normal completion. -/
theorem addFrame_from_out_of_range_counterexample :
    addFrame (mkTrajIndex 1) 1 [1] [5] [0] = .error .ub ∧
    ([(1 : ℚ)].length = [(5 : ℕ)].length ∧ [(5 : ℕ)].length = [(0 : ℕ)].length) ∧
    (∀ t ∈ [(0 : ℕ)], t < 1) := by
  refine ⟨?_, by simp, by simp⟩
  rfl

/-- C9: `add_Frame` dereferences `max_element` of `to` without an
emptiness guard, so the all-empty call is undefined behaviour (modelled
`ub`) — the operation is only total on nonempty candidate arrays — and
`push_back` produces exactly this call whenever no candidate pair
survives the overlap test: two far-apart one-detection frames give an
empty candidate list, and the second `push_back` hits the undefined
`max_element`. -/
theorem links_far_apart_empty :
    links_by_RStarTree [⟨0, 0, 1, 0⟩] [⟨100, 0, 1, 0⟩] 1 = [] := by
  norm_num [links_by_RStarTree, queryOverlap, overlap2, get_bb, dist2p, c2d,
    List.range_succ, List.filter, List.filterMap]

theorem addFrame_nil_ub (ti : TrajIndex) (n : ℕ) :
    addFrame ti n [] [] [] = .error .ub := by
  unfold addFrame
  rw [if_neg (by simp)]
  rfl

theorem addFrame_needs_nonempty :
    (∀ (ti : TrajIndex) (n : ℕ), addFrame ti n [] [] [] = .error .ub) ∧
    links_by_RStarTree [⟨0, 0, 1, 0⟩] [⟨100, 0, 1, 0⟩] 1 = [] ∧
    (∃ r1, pushBackRecon emptyRecon [⟨0, 0, 1, 0⟩] 1 = .ok r1 ∧
      pushBackRecon r1 [⟨100, 0, 1, 0⟩] 1 = .error .ub) := by
  refine ⟨addFrame_nil_ub, links_far_apart_empty, ⟨_, rfl, ?_⟩⟩
  simp only [pushBackRecon, links_far_apart_empty, List.map_nil,
    List.map_cons, addFrame_nil_ub]

/-! ## Candidate links: R*-tree versus brute force (C3) -/

theorem filterMap_if {α : Type} (f : ℕ → α) (q : ℕ → Prop) [DecidablePred q] :
    ∀ l : List ℕ,
    l.filterMap (fun t => if q t then some (f t) else none) =
      (l.filter (fun t => decide (q t))).map f := by
  intro l
  induction l with
  | nil => rfl
  | cons a t ih =>
    by_cases h : q a
    · rw [List.filterMap_cons, List.filter_cons_of_pos (by simpa using h),
        if_pos h, List.map_cons, ih]
    · rw [List.filterMap_cons, List.filter_cons_of_neg (by simpa using h),
        if_neg h, ih]

theorem bounded_of_sq_lt_sq (u s : ℚ) (hs : 0 ≤ s) (h : u * u < s * s) :
    -s ≤ u ∧ u ≤ s := by
  constructor <;> nlinarith [mul_self_nonneg (u + s), mul_self_nonneg (u - s)]

theorem overlap_of_dist (cp ct : Center2D) (tol : ℚ) (h0 : 0 ≤ tol)
    (h1 : tol ≤ 1) (hrp : 0 ≤ cp.r) (hrt : 0 ≤ ct.r)
    (hd : dist2p cp ct <
      (cp.r + ct.r) * tol * ((cp.r + ct.r) * tol)) :
    overlap2 (get_bb cp tol) (get_bb ct 1) = true := by
  unfold dist2p at hd
  unfold overlap2 get_bb
  simp only [Bool.and_eq_true, decide_eq_true_eq]
  have hx := mul_self_nonneg (cp.cx - ct.cx)
  have hy := mul_self_nonneg (cp.cy - ct.cy)
  have hrt2 : ct.r * tol ≤ ct.r := by nlinarith
  have hs : 0 ≤ cp.r * tol + ct.r := by positivity
  have h3 : (cp.r + ct.r) * tol ≤ cp.r * tol + ct.r := by
    rw [add_mul]; linarith
  have h4 : 0 ≤ (cp.r + ct.r) * tol := mul_nonneg (by linarith) h0
  have hss : (cp.r + ct.r) * tol * ((cp.r + ct.r) * tol) ≤
      (cp.r * tol + ct.r) * (cp.r * tol + ct.r) :=
    mul_le_mul h3 h3 h4 hs
  have hbx := bounded_of_sq_lt_sq (cp.cx - ct.cx) (cp.r * tol + ct.r) hs
    (by linarith)
  have hby := bounded_of_sq_lt_sq (cp.cy - ct.cy) (cp.r * tol + ct.r) hs
    (by linarith)
  obtain ⟨hbx1, hbx2⟩ := hbx
  obtain ⟨hby1, hby2⟩ := hby
  refine ⟨⟨⟨?_, ?_⟩, ?_⟩, ?_⟩ <;> linarith

/-- C3 (corrected): for tolerances in `[0, 1]` and nonnegative detection
radii, the R*-tree candidate generation returns exactly the brute-force
pair enumeration filtered by the squared-distance test — same pairs, same
distances, same order.  (For `tolerance > 1` the overlap prefilter can
drop pairs the distance test accepts; see the counterexample.) -/
theorem links_by_RStarTree_eq_bruteforce (last fr : List Center2D) (tol : ℚ)
    (h0 : 0 ≤ tol) (h1 : tol ≤ 1)
    (hrl : ∀ c ∈ last, 0 ≤ c.r) (hrf : ∀ c ∈ fr, 0 ≤ c.r) :
    links_by_RStarTree last fr tol =
      (links_by_brute_force last fr).filter
        (fun x => decide (x.1 <
          ((c2d last x.2.1).r + (c2d fr x.2.2).r) * tol *
            (((c2d last x.2.1).r + (c2d fr x.2.2).r) * tol))) := by
  unfold links_by_RStarTree links_by_brute_force queryOverlap
  rw [List.filter_flatMap]
  apply List.flatMap_congr
  intro p hp
  rw [List.mem_range] at hp
  rw [filterMap_if, List.filter_map, List.filter_filter]
  congr 1
  apply List.filter_congr
  intro t ht
  rw [List.mem_range] at ht
  rw [Bool.eq_iff_iff]
  simp only [Function.comp_apply, Bool.and_eq_true, decide_eq_true_eq]
  constructor
  · exact And.left
  · intro h
    refine ⟨h, ?_⟩
    apply overlap_of_dist _ _ _ h0 h1
    · apply hrl
      unfold c2d
      rw [List.getD_eq_getElem _ _ (by simpa using hp)]
      exact List.getElem_mem hp
    · apply hrf
      unfold c2d
      rw [List.getD_eq_getElem _ _ (by simpa using ht)]
      exact List.getElem_mem ht
    · exact h

/-- Witness for C3 at a concrete input: two overlapping detections one
frame apart, tolerance 1: both sides produce the single candidate. -/
theorem links_by_RStarTree_eq_bruteforce_witness :
    ((0 : ℚ) ≤ 1 ∧ (1 : ℚ) ≤ 1) ∧
    links_by_RStarTree [⟨0, 0, 1, 0⟩] [⟨1, 0, 1, 0⟩] 1 =
      (links_by_brute_force [⟨0, 0, 1, 0⟩] [⟨1, 0, 1, 0⟩]).filter
        (fun x => decide (x.1 <
          ((c2d [⟨0, 0, 1, 0⟩] x.2.1).r + (c2d [⟨1, 0, 1, 0⟩] x.2.2).r) * 1 *
            (((c2d [⟨0, 0, 1, 0⟩] x.2.1).r + (c2d [⟨1, 0, 1, 0⟩] x.2.2).r) * 1))) :=
  ⟨⟨by norm_num, le_refl 1⟩,
   links_by_RStarTree_eq_bruteforce [⟨0, 0, 1, 0⟩] [⟨1, 0, 1, 0⟩] 1
     (by norm_num) (le_refl 1)
     (by intro c hc; rw [List.mem_singleton] at hc; subst hc; norm_num)
     (by intro c hc; rw [List.mem_singleton] at hc; subst hc; norm_num)⟩

/-- C3 counterexample: with `tolerance = 2` (the claim quantifies over
every tolerance) a pair at planar distance 8 passes the distance test
`64 < ((1+4)*2)^2 = 100`, but the expanded box `[-2,2]` of the previous
detection does not meet the box `[4,12]` of the new one, so the R*-tree
version misses the pair the filtered brute force keeps. -/
theorem links_by_RStarTree_counterexample :
    links_by_RStarTree [⟨0, 0, 1, 0⟩] [⟨8, 0, 4, 0⟩] 2 = [] ∧
    (links_by_brute_force [⟨0, 0, 1, 0⟩] [⟨8, 0, 4, 0⟩]).filter
        (fun x => decide (x.1 <
          ((c2d [⟨0, 0, 1, 0⟩] x.2.1).r + (c2d [⟨8, 0, 4, 0⟩] x.2.2).r) * 2 *
            (((c2d [⟨0, 0, 1, 0⟩] x.2.1).r + (c2d [⟨8, 0, 4, 0⟩] x.2.2).r) * 2))) =
      [(64, 0, 0)] := by
  constructor
  · norm_num [links_by_RStarTree, queryOverlap, overlap2, get_bb, dist2p, c2d,
      List.range_succ, List.filter, List.filterMap]
  · norm_num [links_by_brute_force, dist2p, c2d, List.range_succ, List.filter]

/-! ## The greedy linker characterized (C1) -/

theorem usedA_nil (n : ℕ) : List.replicate n false = usedA n [] := by
  unfold usedA
  simp

theorem lastMap_mk (a : List Traj) (b : List (List ℕ)) :
    lastMap ⟨a, b⟩ = b.getLastD [] := rfl

theorem addFrameCore_char (ti : TrajIndex) (frame_size : ℕ) (links : List Link)
    (hla : ∀ l ∈ links, l.la < (lastMap ti).length)
    (hlb : ∀ l ∈ links, l.lb < frame_size) :
    addFrameCore ti frame_size links =
      ⟨trFold (lastMap ti) (acceptedOf links) ti.tr2pos ++
         (missList (acceptedOf links) frame_size).map
           (fun p => (⟨ti.pos2tr.length, [p]⟩ : Traj)),
       ti.pos2tr ++ [assignMiss ti.tr2pos.length
         (nmFold (lastMap ti) (acceptedOf links) (List.replicate frame_size 0))
         (missList (acceptedOf links) frame_size)]⟩ := by
  have hperm : (links.mergeSort linkLE).Perm links := List.mergeSort_perm links linkLE
  have hsrt : ∀ l ∈ links.mergeSort linkLE,
      l.la < (lastMap ti).length ∧ l.lb < frame_size := by
    intro l hl
    have hm := hperm.mem_iff.mp hl
    exact ⟨hla l hm, hlb l hm⟩
  simp only [addFrameCore]
  rw [show ti.pos2tr.getLastD [] = lastMap ti from rfl]
  rw [usedA_nil, usedA_nil,
    foldl_linkStep_char (lastMap ti) (links.mergeSort linkLE)
      (lastMap ti).length frame_size [] [] _ _ hsrt]
  dsimp only
  unfold createNew
  rw [show (usedA frame_size
      ((greedyLinks (links.mergeSort linkLE) [] []).map (fun l => l.lb) ++ [])).length
      = frame_size from usedA_length _ _]
  rw [createNew_go]
  dsimp only
  have hmiss : (List.range frame_size).filter
      (fun p => !(usedA frame_size
        ((greedyLinks (links.mergeSort linkLE) [] []).map (fun l => l.lb) ++ [])).getD p true) =
      missList (acceptedOf links) frame_size := by
    unfold missList acceptedOf
    apply List.filter_congr
    intro p hp
    rw [List.mem_range] at hp
    rw [usedA_getD _ _ _ _ hp]
    rw [Bool.eq_iff_iff]
    simp
  rw [hmiss]
  rw [show greedyLinks (links.mergeSort linkLE) [] [] = acceptedOf links from rfl,
    trFold_length]

theorem mkLinks_mem : ∀ (ds : List ℚ) (fs ts : List ℕ) (l : Link),
    l ∈ mkLinks ds fs ts → l.la ∈ fs ∧ l.lb ∈ ts := by
  intro ds
  induction ds with
  | nil => intro fs ts l h; simp [mkLinks] at h
  | cons d rest ih =>
    intro fs ts l h
    match fs, ts with
    | [], _ => simp [mkLinks] at h
    | _ :: _, [] => simp [mkLinks] at h
    | f :: fs2, t :: ts2 =>
      rw [mkLinks, List.zip_cons_cons, List.zipWith_cons_cons] at h
      rcases List.mem_cons.mp h with h | h
      · subst h
        exact ⟨List.mem_cons_self _ _, List.mem_cons_self _ _⟩
      · have := ih fs2 ts2 l h
        exact ⟨List.mem_cons_of_mem _ this.1, List.mem_cons_of_mem _ this.2⟩

theorem linkLE_trans : ∀ a b c : Link,
    linkLE a b = true → linkLE b c = true → linkLE a c = true := by
  intro a b c h1 h2
  unfold linkLE at *
  simp only [decide_eq_true_eq] at *
  linarith

theorem linkLE_total : ∀ a b : Link, (linkLE a b || linkLE b a) = true := by
  intro a b
  unfold linkLE
  rcases le_total a.d b.d with h | h <;> simp [h]

/-- C1: with valid candidate arrays (equal sizes, nonempty, indices in
range) against a well-formed previous frame (injective ownership, owners
existing), `add_Frame` accepts exactly the greedy selection over the
distance-sorted candidates: every accepted link `(f, t)` appends `t` to
the trajectory owning `f` and makes that trajectory own `t` in the new
frame; new-frame positions missed by the accepted set start fresh
singleton trajectories instead; trajectories of unlinked previous
positions are untouched; and the head of the sorted list — a candidate of
globally minimal distance — is always accepted. -/
theorem addFrame_greedy (ti : TrajIndex) (frame_size : ℕ)
    (ds : List ℚ) (fs ts : List ℕ)
    (hlen : ds.length = fs.length ∧ fs.length = ts.length)
    (hne : ts ≠ [])
    (hmax : ∀ t ∈ ts, t < frame_size)
    (hfs : ∀ f ∈ fs, f < (lastMap ti).length)
    (hinj : ∀ i j, i < (lastMap ti).length → j < (lastMap ti).length →
      (lastMap ti).getD i 0 = (lastMap ti).getD j 0 → i = j)
    (howner : ∀ f ∈ fs, (lastMap ti).getD f 0 < ti.tr2pos.length) :
    ∃ ti2, addFrame ti frame_size ds fs ts = .ok ti2 ∧
      ((mkLinks ds fs ts).mergeSort linkLE).Perm (mkLinks ds fs ts) ∧
      ((mkLinks ds fs ts).mergeSort linkLE).Pairwise (fun x y => x.d ≤ y.d) ∧
      (∀ l ∈ acceptedOf (mkLinks ds fs ts),
        trAt ti2.tr2pos ((lastMap ti).getD l.la 0) =
          pushTraj (trAt ti.tr2pos ((lastMap ti).getD l.la 0)) l.lb ∧
        (lastMap ti2).getD l.lb 0 = (lastMap ti).getD l.la 0) ∧
      (∀ p, p < frame_size → p ∉ (acceptedOf (mkLinks ds fs ts)).map (fun l => l.lb) →
        ti.tr2pos.length ≤ (lastMap ti2).getD p 0 ∧
        trAt ti2.tr2pos ((lastMap ti2).getD p 0) = ⟨ti.pos2tr.length, [p]⟩) ∧
      (∀ tr, tr < ti.tr2pos.length →
        tr ∉ (acceptedOf (mkLinks ds fs ts)).map (fun l => (lastMap ti).getD l.la 0) →
        trAt ti2.tr2pos tr = trAt ti.tr2pos tr) ∧
      (∀ l0, ((mkLinks ds fs ts).mergeSort linkLE).head? = some l0 →
        l0 ∈ acceptedOf (mkLinks ds fs ts) ∧ ∀ l ∈ mkLinks ds fs ts, l0.d ≤ l.d) := by
  have hok : addFrame ti frame_size ds fs ts =
      .ok (addFrameCore ti frame_size (mkLinks ds fs ts)) :=
    addFrame_ok_eq ti frame_size ds fs ts hlen hne hmax hfs
  have hla : ∀ l ∈ mkLinks ds fs ts, l.la < (lastMap ti).length :=
    fun l hl => hfs l.la (mkLinks_mem ds fs ts l hl).1
  have hlb : ∀ l ∈ mkLinks ds fs ts, l.lb < frame_size :=
    fun l hl => hmax l.lb (mkLinks_mem ds fs ts l hl).2
  have hchar := addFrameCore_char ti frame_size (mkLinks ds fs ts) hla hlb
  have hperm : ((mkLinks ds fs ts).mergeSort linkLE).Perm (mkLinks ds fs ts) :=
    List.mergeSort_perm _ linkLE
  have hmemA : ∀ l ∈ acceptedOf (mkLinks ds fs ts), l ∈ mkLinks ds fs ts := by
    intro l hl
    exact hperm.mem_iff.mp
      ((greedyLinks_sublist ((mkLinks ds fs ts).mergeSort linkLE) [] []).mem hl)
  have hndb : ((acceptedOf (mkLinks ds fs ts)).map (fun l => l.lb)).Nodup :=
    (greedyLinks_lb_fresh ((mkLinks ds fs ts).mergeSort linkLE) [] []).1
  have hnda : ((acceptedOf (mkLinks ds fs ts)).map (fun l => l.la)).Nodup :=
    (greedyLinks_la_fresh ((mkLinks ds fs ts).mergeSort linkLE) [] []).1
  have hndtr : ((acceptedOf (mkLinks ds fs ts)).map
      (fun l => (lastMap ti).getD l.la 0)).Nodup := by
    have : (fun l : Link => (lastMap ti).getD l.la 0) =
        (fun a => (lastMap ti).getD a 0) ∘ (fun l : Link => l.la) := rfl
    rw [this, ← List.map_map]
    apply List.Nodup.map_on _ hnda
    intro x hx y hy hxy
    rw [List.mem_map] at hx hy
    obtain ⟨lx, hlx, rfl⟩ := hx
    obtain ⟨ly, hly, rfl⟩ := hy
    exact hinj _ _ (hla lx (hmemA lx hlx)) (hla ly (hmemA ly hly)) hxy
  refine ⟨_, hok, hperm, ?_, ?_, ?_, ?_, ?_⟩
  · have := @List.sorted_mergeSort _ linkLE linkLE_trans linkLE_total
      (mkLinks ds fs ts)
    apply this.imp
    intro a b h
    simpa [linkLE] using h
  · intro l hl
    rw [hchar]
    constructor
    · unfold trAt
      rw [List.getD_append _ _ _ _ (by
        rw [trFold_length]
        exact howner l.la (mkLinks_mem ds fs ts l (hmemA l hl)).1)]
      exact trFold_getD_mem (lastMap ti) _ ti.tr2pos l hl hndtr
        (howner l.la (mkLinks_mem ds fs ts l (hmemA l hl)).1)
    · rw [lastMap_mk, List.getLastD_concat]
      rw [assignMiss_getD_notmem _ _ _ _ (by
        unfold missList
        rw [List.mem_filter]
        rintro ⟨-, hmem⟩
        rw [decide_eq_true_eq] at hmem
        exact hmem (List.mem_map.mpr ⟨l, hl, rfl⟩))]
      exact nmFold_getD_mem (lastMap ti) _ _ l hl hndb
        (by simpa using hlb l (hmemA l hl))
  · intro p hp hpnot
    have hpmem : p ∈ missList (acceptedOf (mkLinks ds fs ts)) frame_size := by
      unfold missList
      rw [List.mem_filter, List.mem_range]
      exact ⟨hp, by simpa using hpnot⟩
    obtain ⟨⟨k, hk⟩, hkp⟩ := List.mem_iff_get.mp hpmem
    have hmnd : (missList (acceptedOf (mkLinks ds fs ts)) frame_size).Nodup :=
      List.Nodup.filter _ (List.nodup_range frame_size)
    have hplen : (missList (acceptedOf (mkLinks ds fs ts)) frame_size).get ⟨k, hk⟩ <
        (nmFold (lastMap ti) (acceptedOf (mkLinks ds fs ts))
          (List.replicate frame_size 0)).length := by
      rw [hkp, nmFold_length]
      simpa using hp
    have hass := assignMiss_getD_mem _ ti.tr2pos.length
      (nmFold (lastMap ti) (acceptedOf (mkLinks ds fs ts)) (List.replicate frame_size 0))
      k hk hmnd hplen
    rw [hkp] at hass
    rw [hchar, lastMap_mk, List.getLastD_concat, hass]
    constructor
    · omega
    · unfold trAt
      rw [List.getD_append_right _ _ _ _ (by rw [trFold_length]; omega)]
      rw [trFold_length]
      have hkidx : ti.tr2pos.length + k - ti.tr2pos.length = k := by omega
      rw [hkidx]
      rw [List.getD_eq_getElem _ _ (by simpa using hk)]
      rw [List.getElem_map]
      congr 1
      rw [← hkp]
      congr 1
  · intro tr htr htrNot
    rw [hchar]
    unfold trAt
    rw [List.getD_append _ _ _ _ (by rw [trFold_length]; exact htr)]
    exact trFold_getD_notmem (lastMap ti) _ ti.tr2pos tr htrNot
  · intro l0 hl0
    cases hsrt : (mkLinks ds fs ts).mergeSort linkLE with
    | nil => rw [hsrt] at hl0; simp at hl0
    | cons x rest =>
      rw [hsrt, List.head?_cons, Option.some_inj] at hl0
      subst hl0
      constructor
      · unfold acceptedOf
        rw [hsrt, greedyLinks]
        rw [if_pos (by simp)]
        exact List.mem_cons_self _ _
      · intro l hl
        have hsorted := @List.sorted_mergeSort _ linkLE linkLE_trans linkLE_total
          (mkLinks ds fs ts)
        rw [hsrt, List.pairwise_cons] at hsorted
        have hmem : l ∈ x :: rest := by
          rw [← hsrt]
          exact (List.mergeSort_perm (mkLinks ds fs ts) linkLE).mem_iff.mpr hl
        rcases List.mem_cons.mp hmem with h | h
        · subst h
          exact le_refl _
        · have := hsorted.1 l h
          simpa [linkLE] using this

/-- Witness for C1: the spec scenario — previous frame `[A, B]`, new
frame of three positions, candidate links
`(A→A', 1/10), (A→B', 1/20), (B→B', 2/10), (B→A', 3/10)` — satisfies
every hypothesis of the greedy-linking theorem, which then yields the
successful call. -/
theorem addFrame_greedy_witness :
    (([(1 : ℚ)/10, 1/20, 2/10, 3/10].length = [0, 0, 1, 1].length ∧
      [(0 : ℕ), 0, 1, 1].length = [0, 1, 1, 0].length) ∧
     ([(0 : ℕ), 1, 1, 0] ≠ []) ∧
     (∀ t ∈ [(0 : ℕ), 1, 1, 0], t < 3)) ∧
    (∃ ti2, addFrame (mkTrajIndex 2) 3 [1/10, 1/20, 2/10, 3/10]
      [0, 0, 1, 1] [0, 1, 1, 0] = .ok ti2) := by
  have hl : lastMap (mkTrajIndex 2) = [0, 1] := by decide
  have hinj : ∀ i j, i < (lastMap (mkTrajIndex 2)).length →
      j < (lastMap (mkTrajIndex 2)).length →
      (lastMap (mkTrajIndex 2)).getD i 0 = (lastMap (mkTrajIndex 2)).getD j 0 →
      i = j := by
    intro i j hi hj hij
    rw [hl] at hi hj hij
    simp only [List.length_cons, List.length_nil] at hi hj
    interval_cases i <;> interval_cases j <;> simp_all
  refine ⟨⟨by decide, by decide, by decide⟩, ?_⟩
  obtain ⟨ti2, hok, -⟩ := addFrame_greedy (mkTrajIndex 2) 3
    [1/10, 1/20, 2/10, 3/10] [0, 0, 1, 1] [0, 1, 1, 0]
    (by decide) (by decide) (by decide) (by decide) hinj (by decide)
  exact ⟨ti2, hok⟩

/-! ## Reconstructor cluster/trajectory alignment (C10) -/

theorem links_mem_bounds (last fr : List Center2D) (tol : ℚ) (x : ℚ × ℕ × ℕ)
    (hx : x ∈ links_by_RStarTree last fr tol) :
    x.2.1 < last.length ∧ x.2.2 < fr.length := by
  unfold links_by_RStarTree queryOverlap at hx
  rw [List.mem_flatMap] at hx
  obtain ⟨p, hp, hx⟩ := hx
  rw [List.mem_range] at hp
  rw [List.mem_filterMap] at hx
  obtain ⟨t, ht, hx⟩ := hx
  rw [List.mem_filter, List.mem_range] at ht
  split_ifs at hx
  rw [Option.some_inj] at hx
  subst hx
  exact ⟨hp, ht.1⟩

theorem mkLinks_of_maps : ∀ lks : List (ℚ × ℕ × ℕ),
    mkLinks (lks.map (fun x => x.1)) (lks.map (fun x => x.2.1))
      (lks.map (fun x => x.2.2)) =
      lks.map (fun x => Link.mk x.1 x.2.1 x.2.2) := by
  intro lks
  induction lks with
  | nil => rfl
  | cons x rest ih =>
    simp only [List.map_cons]
    rw [mkLinks, List.zip_cons_cons, List.zipWith_cons_cons]
    rw [show List.zipWith (fun d ft => Link.mk d ft.1 ft.2)
        (rest.map (fun x => x.1)) ((rest.map (fun x => x.2.1)).zip (rest.map (fun x => x.2.2)))
        = mkLinks (rest.map (fun x => x.1)) (rest.map (fun x => x.2.1))
          (rest.map (fun x => x.2.2)) from rfl, ih]

theorem addFrame_ok_inv (ti : TrajIndex) (frame_size : ℕ) (ds : List ℚ)
    (fs ts : List ℕ) (ti2 : TrajIndex)
    (h : addFrame ti frame_size ds fs ts = .ok ti2) :
    ti2 = addFrameCore ti frame_size (mkLinks ds fs ts) := by
  unfold addFrame at h
  split_ifs at h
  rw [Except.ok.injEq] at h
  exact h.symm

theorem range_getD (n i : ℕ) (h : i < n) : (List.range n).getD i 0 = i := by
  rw [List.getD_eq_getElem _ _ (by simpa using h)]
  simp

theorem map_range_getD {α : Type} (f : ℕ → α) (d : α) (n i : ℕ) (h : i < n) :
    ((List.range n).map f).getD i d = f i := by
  rw [List.getD_eq_getElem _ _ (by simpa using h)]
  simp

theorem reconInv_first (fr : List Center2D) :
    ReconInv ⟨fr.map (fun c => [mkC3 c 0]), some (mkTrajIndex fr.length), fr⟩ := by
  unfold ReconInv mkTrajIndex
  dsimp only
  have hlm : lastMap ⟨(List.range fr.length).map (fun p => (⟨0, [p]⟩ : Traj)),
      [List.range fr.length]⟩ = List.range fr.length := rfl
  rw [hlm]
  refine ⟨by simp, by simp, ?_, ?_, ?_, by simp, ?_⟩
  · intro p hp
    rw [List.length_range] at hp
    rw [range_getD _ _ hp]
    simpa using hp
  · intro i j hi hj hij
    rw [List.length_range] at hi hj
    rwa [range_getD _ _ hi, range_getD _ _ hj] at hij
  · intro p hp
    rw [List.length_range] at hp
    rw [range_getD _ _ hp]
    unfold trAt
    rw [map_range_getD _ _ _ _ hp]
    simp
  · intro tr htr
    rw [List.length_map, List.length_range] at htr
    unfold trAt
    rw [map_range_getD _ _ _ _ htr]
    rw [List.getD_eq_getElem _ _ (by simpa using htr), List.getElem_map]
    simp [mkC3, List.range'_one]

theorem extFold_cons (newMap : List ℕ) (fr : List Center2D) (t : ℕ)
    (q : ℕ) (qs : List ℕ) (cl : List (List Center3D)) :
    extFold newMap fr t (q :: qs) cl =
      extFold newMap fr t qs
        (cl.set (newMap.getD q 0)
          (cl.getD (newMap.getD q 0) [] ++ [mkC3 (c2d fr q) t])) := rfl

theorem extFold_length (newMap : List ℕ) (fr : List Center2D) (t : ℕ) :
    ∀ (qs : List ℕ) (cl : List (List Center3D)),
    (extFold newMap fr t qs cl).length = cl.length := by
  intro qs
  induction qs with
  | nil => intro cl; rfl
  | cons q rest ih =>
    intro cl
    rw [extFold_cons, ih]
    simp

theorem getD_setC_self (l : List (List Center3D)) (i : ℕ) (v : List Center3D)
    (h : i < l.length) : (l.set i v).getD i [] = v := by
  rw [List.getD_eq_getElem _ _ (by simpa using h), List.getElem_set, if_pos rfl]

theorem getD_setC_other (l : List (List Center3D)) (i j : ℕ) (v : List Center3D)
    (h : i ≠ j) : (l.set i v).getD j [] = l.getD j [] := by
  rcases Nat.lt_or_ge j l.length with hj | hj
  · rw [List.getD_eq_getElem _ _ (by simpa using hj),
      List.getD_eq_getElem _ _ hj, List.getElem_set, if_neg h]
  · rw [List.getD_eq_default _ _ (by simpa using hj),
      List.getD_eq_default _ _ (by simpa using hj)]

theorem extFold_getD_notmem (newMap : List ℕ) (fr : List Center2D) (t : ℕ) :
    ∀ (qs : List ℕ) (cl : List (List Center3D)) (tr : ℕ),
    tr ∉ qs.map (fun q => newMap.getD q 0) →
    (extFold newMap fr t qs cl).getD tr [] = cl.getD tr [] := by
  intro qs
  induction qs with
  | nil => intro cl tr _; rfl
  | cons q rest ih =>
    intro cl tr hp
    simp only [List.map_cons, List.mem_cons] at hp
    push_neg at hp
    rw [extFold_cons, ih _ _ hp.2, getD_setC_other _ _ _ _ (fun h => hp.1 h.symm)]

theorem extFold_getD_mem (newMap : List ℕ) (fr : List Center2D) (t : ℕ) :
    ∀ (qs : List ℕ) (cl : List (List Center3D)) (q : ℕ),
    q ∈ qs → (qs.map (fun x => newMap.getD x 0)).Nodup →
    newMap.getD q 0 < cl.length →
    (extFold newMap fr t qs cl).getD (newMap.getD q 0) [] =
      cl.getD (newMap.getD q 0) [] ++ [mkC3 (c2d fr q) t] := by
  intro qs
  induction qs with
  | nil => intro _ _ h; simp at h
  | cons x rest ih =>
    intro cl q hq hnd hlen
    simp only [List.map_cons, List.nodup_cons] at hnd
    rw [extFold_cons]
    rcases List.mem_cons.mp hq with h | h
    · subst h
      rw [extFold_getD_notmem newMap fr t rest _ _ hnd.1,
        getD_setC_self _ _ _ hlen]
    · by_cases hsame : newMap.getD x 0 = newMap.getD q 0
      · exact absurd (hsame ▸ (List.mem_map.mpr ⟨q, h, rfl⟩)) hnd.1
      · rw [ih _ q h hnd.2 (by simpa using hlen), getD_setC_other _ _ _ _ hsame]

theorem extFold_append_one (newMap : List ℕ) (old : ℕ) (fr : List Center2D)
    (t : ℕ) : ∀ (qs : List ℕ) (cl : List (List Center3D)) (x : List Center3D),
    (∀ q ∈ qs, newMap.getD q 0 < old) → old ≤ cl.length →
    extFold newMap fr t qs (cl ++ [x]) = extFold newMap fr t qs cl ++ [x] := by
  intro qs
  induction qs with
  | nil => intro cl x _ _; rfl
  | cons q rest ih =>
    intro cl x hq hlen
    have hq0 : newMap.getD q 0 < old := hq q (List.mem_cons_self _ _)
    rw [extFold_cons, extFold_cons]
    rw [List.getD_append _ _ _ _ (by omega)]
    rw [List.set_append, if_pos (by omega)]
    exact ih _ x (fun a ha => hq a (List.mem_cons_of_mem _ ha)) (by simpa using hlen)

theorem clusterFold_split (newMap : List ℕ) (old : ℕ) (fr : List Center2D)
    (t : ℕ) : ∀ (ps : List ℕ) (cl : List (List Center3D)),
    old ≤ cl.length →
    ps.foldl (clusterStep newMap old fr t) cl =
      extFold newMap fr t (ps.filter (fun p => decide (newMap.getD p 0 < old))) cl
        ++ (ps.filter (fun p => !decide (newMap.getD p 0 < old))).map
            (fun p => [mkC3 (c2d fr p) t]) := by
  intro ps
  induction ps with
  | nil => intro cl _; simp [extFold]
  | cons p rest ih =>
    intro cl hlen
    rw [List.foldl_cons]
    by_cases hc : newMap.getD p 0 < old
    · rw [List.filter_cons_of_pos (by simpa using hc),
        List.filter_cons_of_neg (by simpa using hc),
        extFold_cons]
      rw [show clusterStep newMap old fr t cl p =
          cl.set (newMap.getD p 0)
            (cl.getD (newMap.getD p 0) [] ++ [mkC3 (c2d fr p) t]) by
        unfold clusterStep; rw [if_pos hc]]
      exact ih _ (by simpa using hlen)
    · rw [List.filter_cons_of_neg (by simpa using hc),
        List.filter_cons_of_pos (by simpa using hc),
        List.map_cons]
      rw [show clusterStep newMap old fr t cl p = cl ++ [[mkC3 (c2d fr p) t]] by
        unfold clusterStep; rw [if_neg hc]]
      rw [ih _ (by simp; omega)]
      rw [extFold_append_one newMap old fr t _ cl _
        (fun q hqm => by
          rw [List.mem_filter] at hqm
          simpa using hqm.2) hlen]
      rw [List.append_assoc]
      rfl

theorem mem_missList (A : List Link) (n p : ℕ) :
    p ∈ missList A n ↔ p < n ∧ p ∉ A.map (fun l => l.lb) := by
  unfold missList
  rw [List.mem_filter, List.mem_range]
  simp

theorem missList_nodup (A : List Link) (n : ℕ) : (missList A n).Nodup :=
  List.Nodup.filter _ (List.nodup_range n)

theorem missList_lt (A : List Link) (n : ℕ) : ∀ p ∈ missList A n, p < n :=
  fun p hp => ((mem_missList A n p).mp hp).1

/-- `push_back` after `add_Frame`: the invariant is preserved.  All the
state components of the new reconstructor are spelled out through
`addFrameCore`. -/
theorem reconInv_step (ti : TrajIndex) (fr : List Center2D) (L : List Link)
    (cl : List (List Center3D))
    (h3 : ∀ p, p < (lastMap ti).length → (lastMap ti).getD p 0 < ti.tr2pos.length)
    (h4 : ∀ i j, i < (lastMap ti).length → j < (lastMap ti).length →
      (lastMap ti).getD i 0 = (lastMap ti).getD j 0 → i = j)
    (h5 : ∀ p, p < (lastMap ti).length →
      (trAt ti.tr2pos ((lastMap ti).getD p 0)).start +
        (trAt ti.tr2pos ((lastMap ti).getD p 0)).steps.length = ti.pos2tr.length)
    (h6 : cl.length = ti.tr2pos.length)
    (h7 : ∀ tr, tr < ti.tr2pos.length →
      (cl.getD tr []).map (fun c => c.pz) =
        (List.range' (trAt ti.tr2pos tr).start
          (trAt ti.tr2pos tr).steps.length).map (Nat.cast : ℕ → ℚ))
    (hla : ∀ l ∈ L, l.la < (lastMap ti).length)
    (hlb : ∀ l ∈ L, l.lb < fr.length) :
    ReconInv ⟨(List.range fr.length).foldl
        (clusterStep ((addFrameCore ti fr.length L).pos2tr.getLastD [])
          ti.tr2pos.length fr ti.pos2tr.length) cl,
      some (addFrameCore ti fr.length L), fr⟩ := by
  have hchar := addFrameCore_char ti fr.length L hla hlb
  rw [hchar]
  rw [show (TrajIndex.mk (trFold (lastMap ti) (acceptedOf L) ti.tr2pos ++
      (missList (acceptedOf L) fr.length).map
        (fun p => (⟨ti.pos2tr.length, [p]⟩ : Traj)))
      (ti.pos2tr ++ [assignMiss ti.tr2pos.length
        (nmFold (lastMap ti) (acceptedOf L) (List.replicate fr.length 0))
        (missList (acceptedOf L) fr.length)])).pos2tr.getLastD []
      = assignMiss ti.tr2pos.length
        (nmFold (lastMap ti) (acceptedOf L) (List.replicate fr.length 0))
        (missList (acceptedOf L) fr.length) from List.getLastD_concat _ _ _]
  have hperm : (L.mergeSort linkLE).Perm L := List.mergeSort_perm L linkLE
  have hmemA : ∀ l ∈ acceptedOf L, l ∈ L := fun l hl =>
    hperm.mem_iff.mp ((greedyLinks_sublist (L.mergeSort linkLE) [] []).mem hl)
  have hndb : ((acceptedOf L).map (fun l => l.lb)).Nodup :=
    (greedyLinks_lb_fresh (L.mergeSort linkLE) [] []).1
  have hnda : ((acceptedOf L).map (fun l => l.la)).Nodup :=
    (greedyLinks_la_fresh (L.mergeSort linkLE) [] []).1
  have hAla : ∀ l ∈ acceptedOf L, l.la < (lastMap ti).length :=
    fun l hl => hla l (hmemA l hl)
  have hAlb : ∀ l ∈ acceptedOf L, l.lb < fr.length :=
    fun l hl => hlb l (hmemA l hl)
  have hA_inj : ∀ l ∈ acceptedOf L, ∀ l2 ∈ acceptedOf L, l.la = l2.la → l = l2 :=
    fun l hl l2 hl2 h => List.inj_on_of_nodup_map hnda hl hl2 h
  have hBinj : ∀ l ∈ acceptedOf L, ∀ l2 ∈ acceptedOf L, l.lb = l2.lb → l = l2 :=
    fun l hl l2 hl2 h => List.inj_on_of_nodup_map hndb hl hl2 h
  have hndtr : ((acceptedOf L).map (fun l => (lastMap ti).getD l.la 0)).Nodup := by
    have heq : (fun l : Link => (lastMap ti).getD l.la 0) =
        (fun a => (lastMap ti).getD a 0) ∘ (fun l : Link => l.la) := rfl
    rw [heq, ← List.map_map]
    apply List.Nodup.map_on _ hnda
    intro x hx y hy hxy
    rw [List.mem_map] at hx hy
    obtain ⟨lx, hlx, rfl⟩ := hx
    obtain ⟨ly, hly, rfl⟩ := hy
    exact h4 _ _ (hAla lx hlx) (hAla ly hly) hxy
  -- shorthand facts about the new ownership map
  have hnm_len : (assignMiss ti.tr2pos.length
      (nmFold (lastMap ti) (acceptedOf L) (List.replicate fr.length 0))
      (missList (acceptedOf L) fr.length)).length = fr.length := by
    rw [assignMiss_length, nmFold_length, List.length_replicate]
  have hlast : lastMap ⟨trFold (lastMap ti) (acceptedOf L) ti.tr2pos ++
      (missList (acceptedOf L) fr.length).map
        (fun p => (⟨ti.pos2tr.length, [p]⟩ : Traj)),
      ti.pos2tr ++ [assignMiss ti.tr2pos.length
        (nmFold (lastMap ti) (acceptedOf L) (List.replicate fr.length 0))
        (missList (acceptedOf L) fr.length)]⟩ =
      assignMiss ti.tr2pos.length
        (nmFold (lastMap ti) (acceptedOf L) (List.replicate fr.length 0))
        (missList (acceptedOf L) fr.length) := by
    rw [lastMap_mk, List.getLastD_concat]
  have hnm_linked : ∀ l ∈ acceptedOf L,
      (assignMiss ti.tr2pos.length
        (nmFold (lastMap ti) (acceptedOf L) (List.replicate fr.length 0))
        (missList (acceptedOf L) fr.length)).getD l.lb 0 =
        (lastMap ti).getD l.la 0 := by
    intro l hl
    rw [assignMiss_getD_notmem _ _ _ _ (by
      rw [mem_missList]
      rintro ⟨-, hmem⟩
      exact hmem (List.mem_map.mpr ⟨l, hl, rfl⟩))]
    exact nmFold_getD_mem (lastMap ti) _ _ l hl hndb
      (by simpa using hAlb l hl)
  have hnm_missed : ∀ (k : ℕ) (hk : k < (missList (acceptedOf L) fr.length).length),
      (assignMiss ti.tr2pos.length
        (nmFold (lastMap ti) (acceptedOf L) (List.replicate fr.length 0))
        (missList (acceptedOf L) fr.length)).getD
          ((missList (acceptedOf L) fr.length).get ⟨k, hk⟩) 0 =
        ti.tr2pos.length + k := by
    intro k hk
    apply assignMiss_getD_mem _ _ _ k hk (missList_nodup _ _)
    rw [nmFold_length, List.length_replicate]
    exact missList_lt _ _ _ (List.get_mem _ _ _)
  have hlinked_iff : ∀ p, p < fr.length →
      ((assignMiss ti.tr2pos.length
        (nmFold (lastMap ti) (acceptedOf L) (List.replicate fr.length 0))
        (missList (acceptedOf L) fr.length)).getD p 0 < ti.tr2pos.length ↔
        p ∈ (acceptedOf L).map (fun l => l.lb)) := by
    intro p hp
    constructor
    · intro hlt
      by_contra hnot
      have hmiss : p ∈ missList (acceptedOf L) fr.length :=
        (mem_missList _ _ _).mpr ⟨hp, hnot⟩
      obtain ⟨⟨k, hk⟩, hkp⟩ := List.mem_iff_get.mp hmiss
      have := hnm_missed k hk
      rw [hkp] at this
      omega
    · intro hmem
      rw [List.mem_map] at hmem
      obtain ⟨l, hl, rfl⟩ := hmem
      rw [hnm_linked l hl]
      exact h3 l.la (hAla l hl)
  have hntrs_len : (trFold (lastMap ti) (acceptedOf L) ti.tr2pos ++
      (missList (acceptedOf L) fr.length).map
        (fun p => (⟨ti.pos2tr.length, [p]⟩ : Traj))).length =
      ti.tr2pos.length + (missList (acceptedOf L) fr.length).length := by
    rw [List.length_append, trFold_length, List.length_map]
  have hmissedqs : (List.range fr.length).filter
      (fun p => !decide ((assignMiss ti.tr2pos.length
        (nmFold (lastMap ti) (acceptedOf L) (List.replicate fr.length 0))
        (missList (acceptedOf L) fr.length)).getD p 0 < ti.tr2pos.length)) =
      missList (acceptedOf L) fr.length := by
    unfold missList
    apply List.filter_congr
    intro p hp
    rw [List.mem_range] at hp
    rw [Bool.eq_iff_iff]
    simp only [Bool.not_eq_eq_eq_not, Bool.not_true, decide_eq_false_iff_not,
      decide_eq_true_eq]
    exact not_congr (hlinked_iff p hp)
  have hlqnd : (((List.range fr.length).filter
      (fun p => decide ((assignMiss ti.tr2pos.length
        (nmFold (lastMap ti) (acceptedOf L) (List.replicate fr.length 0))
        (missList (acceptedOf L) fr.length)).getD p 0 < ti.tr2pos.length))).map
      (fun q => (assignMiss ti.tr2pos.length
        (nmFold (lastMap ti) (acceptedOf L) (List.replicate fr.length 0))
        (missList (acceptedOf L) fr.length)).getD q 0)).Nodup := by
    apply List.Nodup.map_on
    · intro x hx y hy hxy
      rw [List.mem_filter, List.mem_range] at hx hy
      have hxl := (hlinked_iff x hx.1).mp (by simpa using hx.2)
      have hyl := (hlinked_iff y hy.1).mp (by simpa using hy.2)
      rw [List.mem_map] at hxl hyl
      obtain ⟨lx, hlx, rfl⟩ := hxl
      obtain ⟨ly, hly, rfl⟩ := hyl
      rw [hnm_linked lx hlx, hnm_linked ly hly] at hxy
      have hxy2 : lx.la = ly.la := h4 _ _ (hAla lx hlx) (hAla ly hly) hxy
      rw [hA_inj lx hlx ly hly hxy2]
    · exact List.Nodup.filter _ (List.nodup_range _)
  unfold ReconInv
  dsimp only
  rw [hlast]
  refine ⟨by simp, by rw [hnm_len], ?_, ?_, ?_, ?_, ?_⟩
  · -- owners of the new frame in range
    intro p hp
    rw [hnm_len] at hp
    rw [hntrs_len]
    by_cases hlink : p ∈ (acceptedOf L).map (fun l => l.lb)
    · rw [List.mem_map] at hlink
      obtain ⟨l, hl, rfl⟩ := hlink
      rw [hnm_linked l hl]
      have := h3 l.la (hAla l hl)
      omega
    · obtain ⟨⟨k, hk⟩, hkp⟩ := List.mem_iff_get.mp
        ((mem_missList _ _ _).mpr ⟨hp, hlink⟩)
      have := hnm_missed k hk
      rw [hkp] at this
      omega
  · -- injectivity of the new ownership map
    intro i j hi hj hij
    rw [hnm_len] at hi hj
    by_cases hia : i ∈ (acceptedOf L).map (fun l => l.lb) <;>
      by_cases hja : j ∈ (acceptedOf L).map (fun l => l.lb)
    · rw [List.mem_map] at hia hja
      obtain ⟨li, hli, rfl⟩ := hia
      obtain ⟨lj, hlj, rfl⟩ := hja
      rw [hnm_linked li hli, hnm_linked lj hlj] at hij
      have : li.la = lj.la := h4 _ _ (hAla li hli) (hAla lj hlj) hij
      rw [hA_inj li hli lj hlj this]
    · exfalso
      obtain ⟨⟨k, hk⟩, hkp⟩ := List.mem_iff_get.mp
        ((mem_missList _ _ _).mpr ⟨hj, hja⟩)
      have hmj := hnm_missed k hk
      rw [hkp] at hmj
      rw [List.mem_map] at hia
      obtain ⟨li, hli, rfl⟩ := hia
      rw [hnm_linked li hli] at hij
      have := h3 li.la (hAla li hli)
      omega
    · exfalso
      obtain ⟨⟨k, hk⟩, hkp⟩ := List.mem_iff_get.mp
        ((mem_missList _ _ _).mpr ⟨hi, hia⟩)
      have hmi := hnm_missed k hk
      rw [hkp] at hmi
      rw [List.mem_map] at hja
      obtain ⟨lj, hlj, rfl⟩ := hja
      rw [hnm_linked lj hlj] at hij
      have := h3 lj.la (hAla lj hlj)
      omega
    · obtain ⟨⟨k, hk⟩, hkp⟩ := List.mem_iff_get.mp
        ((mem_missList _ _ _).mpr ⟨hi, hia⟩)
      obtain ⟨⟨k2, hk2⟩, hkp2⟩ := List.mem_iff_get.mp
        ((mem_missList _ _ _).mpr ⟨hj, hja⟩)
      have hmi := hnm_missed k hk
      have hmj := hnm_missed k2 hk2
      rw [hkp] at hmi
      rw [hkp2] at hmj
      have hkk : k = k2 := by omega
      subst hkk
      rw [← hkp, ← hkp2]
  · -- liveness of owned trajectories
    intro p hp
    rw [hnm_len] at hp
    rw [show (TrajIndex.mk (trFold (lastMap ti) (acceptedOf L) ti.tr2pos ++
        (missList (acceptedOf L) fr.length).map
          (fun p => (⟨ti.pos2tr.length, [p]⟩ : Traj)))
        (ti.pos2tr ++ [assignMiss ti.tr2pos.length
          (nmFold (lastMap ti) (acceptedOf L) (List.replicate fr.length 0))
          (missList (acceptedOf L) fr.length)])).pos2tr.length
        = ti.pos2tr.length + 1 by simp]
    by_cases hlink : p ∈ (acceptedOf L).map (fun l => l.lb)
    · rw [List.mem_map] at hlink
      obtain ⟨l, hl, rfl⟩ := hlink
      rw [hnm_linked l hl]
      unfold trAt
      rw [List.getD_append _ _ _ _ (by rw [trFold_length]; exact h3 l.la (hAla l hl))]
      rw [trFold_getD_mem (lastMap ti) _ _ l hl hndtr (h3 l.la (hAla l hl))]
      unfold pushTraj
      dsimp only
      rw [List.length_append, List.length_singleton]
      have := h5 l.la (hAla l hl)
      unfold trAt at this
      omega
    · obtain ⟨⟨k, hk⟩, hkp⟩ := List.mem_iff_get.mp
        ((mem_missList _ _ _).mpr ⟨hp, hlink⟩)
      have hmp := hnm_missed k hk
      rw [hkp] at hmp
      rw [hmp]
      unfold trAt
      rw [List.getD_append_right _ _ _ _ (by rw [trFold_length]; omega),
        trFold_length]
      rw [show ti.tr2pos.length + k - ti.tr2pos.length = k by omega]
      rw [List.getD_eq_getElem _ _ (by simpa using hk), List.getElem_map]
      simp
  · -- as many clusters as trajectories
    rw [clusterFold_split _ _ _ _ _ _ (le_of_eq h6.symm), hmissedqs]
    rw [List.length_append, extFold_length, List.length_map, h6, hntrs_len]
  · -- cluster tr holds one Center3D per frame spanned by trajectory tr
    intro tr htr
    rw [hntrs_len] at htr
    rw [clusterFold_split _ _ _ _ _ _ (le_of_eq h6.symm), hmissedqs]
    by_cases htrold : tr < ti.tr2pos.length
    · rw [List.getD_append _ _ _ _ (by rw [extFold_length, h6]; exact htrold)]
      unfold trAt
      rw [List.getD_append _ _ _ _ (by rw [trFold_length]; exact htrold)]
      by_cases hcase : tr ∈ ((List.range fr.length).filter
          (fun p => decide ((assignMiss ti.tr2pos.length
            (nmFold (lastMap ti) (acceptedOf L) (List.replicate fr.length 0))
            (missList (acceptedOf L) fr.length)).getD p 0 < ti.tr2pos.length))).map
          (fun q => (assignMiss ti.tr2pos.length
            (nmFold (lastMap ti) (acceptedOf L) (List.replicate fr.length 0))
            (missList (acceptedOf L) fr.length)).getD q 0)
      · rw [List.mem_map] at hcase
        obtain ⟨q, hq, hqtr⟩ := hcase
        have hqmem := hq
        rw [List.mem_filter, List.mem_range] at hqmem
        obtain ⟨hqfr, hqlt⟩ := hqmem
        have hql : q ∈ (acceptedOf L).map (fun l => l.lb) :=
          (hlinked_iff q hqfr).mp (by simpa using hqlt)
        rw [List.mem_map] at hql
        obtain ⟨l, hl, rfl⟩ := hql
        rw [← hqtr]
        rw [extFold_getD_mem _ _ _ _ _ l.lb hq
          hlqnd
          (by rw [h6]; simpa using hqlt)]
        rw [hnm_linked l hl]
        rw [trFold_getD_mem (lastMap ti) _ _ l hl hndtr (h3 l.la (hAla l hl))]
        unfold pushTraj
        dsimp only
        rw [List.map_append, List.length_append, List.length_singleton,
          List.range'_concat, List.map_append]
        have hlive := h5 l.la (hAla l hl)
        unfold trAt at hlive
        congr 1
        · exact h7 _ (h3 l.la (hAla l hl))
        · simp only [List.map_cons, List.map_nil, mkC3]
          rw [show (ti.tr2pos.getD ((lastMap ti).getD l.la 0) (⟨0, []⟩ : Traj)).start +
              1 * (ti.tr2pos.getD ((lastMap ti).getD l.la 0) (⟨0, []⟩ : Traj)).steps.length
              = ti.pos2tr.length by omega]
      · rw [extFold_getD_notmem _ _ _ _ _ _ hcase]
        rw [trFold_getD_notmem (lastMap ti) _ _ tr (by
          intro hmem
          apply hcase
          rw [List.mem_map] at hmem
          obtain ⟨l, hl, hltr⟩ := hmem
          rw [List.mem_map]
          refine ⟨l.lb, ?_, ?_⟩
          · rw [List.mem_filter, List.mem_range]
            refine ⟨hAlb l hl, ?_⟩
            rw [decide_eq_true_eq, hnm_linked l hl]
            rw [hltr]
            exact htrold
          · rw [hnm_linked l hl]
            exact hltr)]
        exact h7 tr htrold
    · push_neg at htrold
      rw [List.getD_append_right _ _ _ _ (by rw [extFold_length, h6]; omega),
        extFold_length, h6]
      unfold trAt
      rw [List.getD_append_right _ _ _ _ (by rw [trFold_length]; omega),
        trFold_length]
      have hk : tr - ti.tr2pos.length < (missList (acceptedOf L) fr.length).length := by
        omega
      rw [List.getD_eq_getElem _ _ (by simpa using hk), List.getElem_map]
      rw [List.getD_eq_getElem _ _ (by simpa using hk), List.getElem_map]
      dsimp only
      simp [mkC3, List.range'_one]

theorem pushBackRecon_inv (rec : Recon) (fr : List Center2D) (tol : ℚ)
    (rec2 : Recon) (hok : pushBackRecon rec fr tol = .ok rec2)
    (hinv : ReconInv rec) : ReconInv rec2 := by
  unfold pushBackRecon at hok
  cases htraj : rec.traj with
  | none =>
    rw [htraj] at hok
    dsimp only at hok
    rw [Except.ok.injEq] at hok
    subst hok
    exact reconInv_first fr
  | some ti =>
    rw [htraj] at hok
    dsimp only at hok
    cases haf : addFrame ti fr.length
        ((links_by_RStarTree rec.last_frame fr tol).map (fun x => x.1))
        ((links_by_RStarTree rec.last_frame fr tol).map (fun x => x.2.1))
        ((links_by_RStarTree rec.last_frame fr tol).map (fun x => x.2.2)) with
    | error e =>
      rw [haf] at hok
      simp at hok
    | ok ti2 =>
      rw [haf] at hok
      rw [Except.ok.injEq] at hok
      subst hok
      unfold ReconInv at hinv
      rw [htraj] at hinv
      obtain ⟨hnp, hlen2, h3, h4, h5, h6, h7⟩ := hinv
      have hti2 := addFrame_ok_inv _ _ _ _ _ _ haf
      rw [mkLinks_of_maps] at hti2
      subst hti2
      apply reconInv_step ti fr _ rec.clusters h3 h4 h5 h6 h7
      · intro l hl
        rw [List.mem_map] at hl
        obtain ⟨x, hx, rfl⟩ := hl
        rw [hlen2]
        exact (links_mem_bounds _ _ _ _ hx).1
      · intro l hl
        rw [List.mem_map] at hl
        obtain ⟨x, hx, rfl⟩ := hl
        exact (links_mem_bounds _ _ _ _ hx).2

theorem runRecon_eq_foldl (frames : List (List Center2D)) (tol : ℚ) :
    runRecon frames tol = frames.foldl (runStep tol) (.ok emptyRecon) := rfl

theorem runRecon_foldl_error (tol : ℚ) : ∀ (frames : List (List Center2D)) (e : AddErr),
    frames.foldl (runStep tol) (.error e) = .error e := by
  intro frames
  induction frames with
  | nil => intro e; rfl
  | cons fr rest ih => intro e; rw [List.foldl_cons]; exact ih e

theorem runRecon_go_inv (tol : ℚ) : ∀ (frames : List (List Center2D))
    (acc rec : Recon),
    frames.foldl (runStep tol) (.ok acc) = .ok rec →
    ReconInv acc → ReconInv rec := by
  intro frames
  induction frames with
  | nil =>
    intro acc rec h hi
    rw [List.foldl_nil, Except.ok.injEq] at h
    rwa [← h]
  | cons fr rest ih =>
    intro acc rec h hi
    rw [List.foldl_cons] at h
    rw [show runStep tol (.ok acc) fr = pushBackRecon acc fr tol from rfl] at h
    cases hpb : pushBackRecon acc fr tol with
    | error e =>
      rw [hpb, runRecon_foldl_error] at h
      cases h
    | ok acc2 =>
      rw [hpb] at h
      exact ih acc2 rec h (pushBackRecon_inv acc fr tol acc2 hpb hi)

theorem runRecon_inv (frames : List (List Center2D)) (tol : ℚ) (rec : Recon)
    (h : runRecon frames tol = .ok rec) : ReconInv rec := by
  rw [runRecon_eq_foldl] at h
  exact runRecon_go_inv tol frames emptyRecon rec h (by unfold ReconInv emptyRecon; rfl)

/-- C10: after any successful sequence of `push_back` calls (and before
any `split_clusters`), there are exactly as many clusters as
trajectories, and for every trajectory id `tr` the cluster of index `tr`
holds exactly one `Center3D` per frame spanned by trajectory `tr`, in
ascending frame order — its z-coordinates are precisely the frames
`start, start+1, …` of the trajectory.  In particular new trajectories
and new clusters are created in the same ascending position order,
keeping cluster index equal to trajectory id. -/
theorem runRecon_clusters_align (frames : List (List Center2D)) (tol : ℚ)
    (rec : Recon) (ti : TrajIndex)
    (hrun : runRecon frames tol = .ok rec) (hti : rec.traj = some ti) :
    rec.clusters.length = ti.tr2pos.length ∧
    (∀ tr, tr < ti.tr2pos.length →
      (rec.clusters.getD tr []).map (fun c => c.pz) =
        (List.range' (trAt ti.tr2pos tr).start
          (trAt ti.tr2pos tr).steps.length).map (Nat.cast : ℕ → ℚ)) := by
  have hinv := runRecon_inv frames tol rec hrun
  unfold ReconInv at hinv
  rw [hti] at hinv
  obtain ⟨-, -, -, -, -, h6, h7⟩ := hinv
  exact ⟨h6, h7⟩

theorem runRecon_clusters_align_witness :
    runRecon [[⟨0, 0, 1, 0⟩], [⟨1, 0, 1, 0⟩]] 1 = .ok reconW ∧
    reconW.traj = some tiW ∧
    (reconW.clusters.length = tiW.tr2pos.length ∧
      ∀ tr, tr < tiW.tr2pos.length →
        (reconW.clusters.getD tr []).map (fun c => c.pz) =
          (List.range' (trAt tiW.tr2pos tr).start
            (trAt tiW.tr2pos tr).steps.length).map (Nat.cast : ℕ → ℚ)) := by
  have hlk : links_by_RStarTree [⟨0, 0, 1, 0⟩] [⟨1, 0, 1, 0⟩] 1 = [(1, 0, 0)] := by
    norm_num [links_by_RStarTree, queryOverlap, overlap2, get_bb, dist2p, c2d,
      List.range_succ, List.filter, List.filterMap]
  have hrun : runRecon [[⟨0, 0, 1, 0⟩], [⟨1, 0, 1, 0⟩]] 1 = .ok reconW := by
    rw [show runRecon [[⟨0, 0, 1, 0⟩], [⟨1, 0, 1, 0⟩]] 1 =
        pushBackRecon ⟨[[mkC3 ⟨0, 0, 1, 0⟩ 0]], some (mkTrajIndex 1), [⟨0, 0, 1, 0⟩]⟩
          [⟨1, 0, 1, 0⟩] 1 from rfl]
    unfold pushBackRecon
    dsimp only
    rw [hlk]
    norm_num [addFrame, addFrameCore, mkTrajIndex, List.range_succ, linkStep,
      createNew, clusterStep, mkC3, c2d, reconW, tiW, pushTraj,
      List.mergeSort_singleton]
  exact ⟨hrun, rfl, runRecon_clusters_align _ 1 reconW tiW hrun rfl⟩

end Colloids
